import Mathlib

/-!
Shallow embedding of `src/basicLogger/basicLogger.cpp` (class `Log`).

The program is a multi-producer / single-consumer logger.  Producer threads
call `Log::write` (via `operator<<`), which appends a `LogEntry` (thread id +
deferred formatting closure) to `mLogQueue` under `mLogMutex` and possibly
notifies the background thread.  The background thread runs `Log::serialize`,
which waits on `mNotificationVariable` until `mClosing || mCurrentLog != end`,
then either drains the whole queue grouped by thread (closing path) or runs
the do-while drain loop for the current owner thread (normal path).

Modelling decisions, all taken from the source:
* `std::thread::id` is modelled as `Nat`; the default-constructed id
  `std::thread::id{}` (meaning "no owner") is modelled by `none` in
  `Option Nat`, so `mCurrentThreadId : Option Nat`.
* The `std::list` iterator `mCurrentLog` is modelled as a position index into
  the queue, `Option Nat`, with `none` standing for `std::end(mLogQueue)`.
  `std::list::erase` returns the iterator past the erased element, which in
  index terms is the same index into the shortened list.
* A queued closure `[=, value]{ mStream << value; }` only ever appends the
  rendered text of its captured value to the shared `LogBuf` and, when the
  value is a flush manipulator (`std::endl`), triggers `LogBuf::sync`, which
  sets `mFlushed` (`Log::handleSync`).  A `LogEntry` therefore carries the
  rendered text and a flag saying whether rendering it flushes.
* Each iteration of the `while (true)` loop in `Log::serialize` runs entirely
  under `std::unique_lock lock{ mLogMutex }` (released only inside the
  condition-variable wait), and `Log::write` runs entirely under
  `std::lock_guard`.  The interleaving semantics below therefore treats one
  `write` call and one `serialize` loop iteration as atomic steps.
  The field `lockHeld` records the lexical extent of those critical sections,
  so each recorded flush event can be stamped with the lock state at the
  moment `std::cout` is written.
* Ghost (history) fields `appendLog`, `chunk`, `flushLog` record, without
  influencing any behaviour, the global append order, the entries executed
  since the last flush, and the per-flush-event data.  `sinkOut` is the list
  of strings received by the sink (`std::cout`).
-/

namespace BasicLogger

/-- One queued unit of work: `LogEntry { mThreadId, mFunctor }`.  The functor
is modelled by the text it writes into the stream and whether writing it
triggers `LogBuf::sync` (i.e. sets `mFlushed`). -/
structure LogEntry where
  mThreadId : Nat
  text : String
  isFlush : Bool
deriving DecidableEq

/-- Ghost record of one `Log::flush` call: the owner thread at that moment,
the entries whose text makes up the emitted segment, whether the flush
happened on the closing path, and whether `mLogMutex` was held while
`std::cout` was written. -/
structure FlushEvent where
  owner : Option Nat
  chunk : List LogEntry
  duringClose : Bool
  locked : Bool
deriving DecidableEq

/-- The shared state of a `Log` object, plus the sink and ghost history. -/
structure LogState where
  mLogQueue : List LogEntry
  mCurrentLog : Option Nat
  mCurrentThreadId : Option Nat
  mClosing : Bool
  mFlushed : Bool
  mBuffer : String
  sinkOut : List String
  terminated : Bool
  lockHeld : Bool
  appendLog : List LogEntry
  chunk : List LogEntry
  flushLog : List FlushEvent
deriving DecidableEq

/-- Freshly constructed `Log`: empty queue, `mCurrentLog = end`, owner is the
default-constructed thread id, flags clear. -/
def initState : LogState :=
  { mLogQueue := []
    mCurrentLog := none
    mCurrentThreadId := none
    mClosing := false
    mFlushed := false
    mBuffer := ""
    sinkOut := []
    terminated := false
    lockHeld := false
    appendLog := []
    chunk := []
    flushLog := [] }

/-- Concatenation of the rendered texts of a list of entries. -/
def joinTexts (l : List LogEntry) : String :=
  l.foldr (fun e acc => e.text ++ acc) ""

/-- The entries of `l` produced by thread `t`. -/
def filterT (t : Nat) (l : List LogEntry) : List LogEntry :=
  l.filter (fun e => e.mThreadId == t)

/-- All entries recorded in past flush events, in emission order. -/
def histFlat (s : LogState) : List LogEntry :=
  (s.flushLog.map FlushEvent.chunk).flatten

/-- Executing a queued functor: `mStream << value` appends the rendered text
to the buffer and, for flush tokens, runs `LogBuf::sync`, i.e.
`Log::handleSync`, which sets `mFlushed`.  The ghost `chunk` records the
executed entry. -/
def runFunctor (s : LogState) (e : LogEntry) : LogState :=
  { s with
    mBuffer := s.mBuffer ++ e.text
    mFlushed := s.mFlushed || e.isFlush
    chunk := s.chunk ++ [e] }

/-- `Log::flush`: write `mStream.getStringAndClear()` to `std::cout` and clear
`mFlushed`.  The ghost `flushLog` records the event. -/
def flush (s : LogState) : LogState :=
  { s with
    sinkOut := s.sinkOut ++ [s.mBuffer]
    flushLog := s.flushLog ++
      [{ owner := s.mCurrentThreadId
         chunk := s.chunk
         duringClose := s.mClosing
         locked := s.lockHeld }]
    mBuffer := ""
    chunk := []
    mFlushed := false }

/-- `Log::write` (the body of `operator<<`), executed atomically under
`mLogMutex`.  Returns the new state and whether `mNotificationVariable` was
notified. -/
def write (tid : Nat) (txt : String) (fl : Bool) (s : LogState) :
    LogState × Bool :=
  let e : LogEntry := { mThreadId := tid, text := txt, isFlush := fl }
  let s1 := { s with
    mLogQueue := s.mLogQueue ++ [e]
    appendLog := s.appendLog ++ [e] }
  if s1.mCurrentThreadId = none then
    ({ s1 with
       mCurrentLog := some 0
       mCurrentThreadId := s1.mLogQueue.head?.map LogEntry.mThreadId }, true)
  else if s1.mCurrentThreadId = some tid then
    ({ s1 with
       mCurrentLog :=
         if s1.mCurrentLog = none then some (s1.mLogQueue.length - 1)
         else s1.mCurrentLog }, true)
  else
    (s1, false)

/-- The state after `Log::write`. -/
def writeS (tid : Nat) (txt : String) (fl : Bool) (s : LogState) : LogState :=
  (write tid txt fl s).1

/-- Whether `Log::write` notified the drain worker. -/
def writeN (tid : Nat) (txt : String) (fl : Bool) (s : LogState) : Bool :=
  (write tid txt fl s).2

/-- The destructor's first block: set `mClosing` under the mutex (the
subsequent `notify_one` and `join` have no state content of their own). -/
def requestClose (s : LogState) : LogState :=
  { s with mClosing := true }

/-- The predicate of the condition-variable wait in `Log::serialize`:
`mClosing || mCurrentLog != std::end(mLogQueue)`. -/
def drainEnabled (s : LogState) : Bool :=
  s.mClosing || decide (s.mCurrentLog ≠ none)

/-- The do-while condition in the normal drain path:
`mCurrentLog != end && mCurrentThreadId == mCurrentLog->mThreadId`. -/
def drainCond (s : LogState) : Bool :=
  match s.mCurrentLog with
  | none => false
  | some i =>
    match s.mLogQueue[i]? with
    | none => false
    | some e => decide (s.mCurrentThreadId = some e.mThreadId)

/-- `std::find_if(it, end, pred)` over queue positions, starting at index `i`:
first index `≥ i` whose entry belongs to thread `t`. -/
def findFromAux (t : Option Nat) : List LogEntry → Nat → Option Nat
  | [], _ => none
  | e :: r, i =>
    if t = some e.mThreadId then some i else findFromAux t r (i + 1)

/-- Position of the first entry at index `≥ i` of `q` owned by `t`. -/
def findFrom (t : Option Nat) (q : List LogEntry) (i : Nat) : Option Nat :=
  findFromAux t (q.drop i) i

/-- One iteration of the do-while body in the normal path of
`Log::serialize`: execute the functor at the cursor; if `mFlushed`, flush,
erase the entry, reset the cursor to `begin` and rotate or clear the owner;
otherwise erase the entry and advance the cursor with `std::find_if` to the
next entry of the current owner. -/
def drainBody (s : LogState) : LogState :=
  match s.mCurrentLog with
  | none => s
  | some i =>
    match s.mLogQueue[i]? with
    | none => s
    | some e =>
      let s1 := runFunctor s e
      if s1.mFlushed then
        let s2 := flush s1
        let q := s2.mLogQueue.eraseIdx i
        match q.head? with
        | none =>
          { s2 with mLogQueue := q, mCurrentLog := none,
                    mCurrentThreadId := none }
        | some e0 =>
          { s2 with mLogQueue := q, mCurrentLog := some 0,
                    mCurrentThreadId := some e0.mThreadId }
      else
        let q := s1.mLogQueue.eraseIdx i
        { s1 with mLogQueue := q,
                  mCurrentLog := findFrom s1.mCurrentThreadId q i }

/-- Fuel-bounded unfolding of `do { ... } while (drainCond)`.  Every
iteration with a true condition erases exactly one queue entry, so fuel equal
to the queue length never runs out (see `drainWhileF_fix`). -/
def drainWhileF : Nat → LogState → LogState
  | 0, s => s
  | n + 1, s => if drainCond s then drainWhileF n (drainBody s) else s

/-- The whole do-while loop of the normal path: run the body once, then
repeat while the condition holds. -/
def normalDrain (s : LogState) : LogState :=
  let s1 := drainBody s
  drainWhileF s1.mLogQueue.length s1

/-- Fuel-bounded inner while of the closing path:
`while (mCurrentLog != end) { execute-and-erase own entries, skip others }`. -/
def sweepF : Nat → LogState → LogState
  | 0, s => s
  | n + 1, s =>
    match s.mCurrentLog with
    | none => s
    | some i =>
      match s.mLogQueue[i]? with
      | none => { s with mCurrentLog := none }
      | some e =>
        if s.mCurrentThreadId = some e.mThreadId then
          let s1 := runFunctor s e
          let q := s1.mLogQueue.eraseIdx i
          sweepF n { s1 with
            mLogQueue := q
            mCurrentLog := if i < q.length then some i else none }
        else
          sweepF n { s with
            mCurrentLog :=
              if i + 1 < s.mLogQueue.length then some (i + 1) else none }

/-- The inner while loop of the closing path.  Each iteration either erases
an entry or moves the cursor one step towards the end, so
`queue length + 1` units of fuel always suffice. -/
def sweep (s : LogState) : LogState :=
  sweepF (s.mLogQueue.length + 1) s

/-- Fuel-bounded outer while of the closing path:
`while (!mLogQueue.empty()) { reset cursor to begin if at end; sweep }`. -/
def closingLoopF : Nat → LogState → LogState
  | 0, s => s
  | n + 1, s =>
    if s.mLogQueue.isEmpty then s
    else
      let s1 :=
        if s.mCurrentLog = none then
          { s with
            mCurrentLog := some 0
            mCurrentThreadId := s.mLogQueue.head?.map LogEntry.mThreadId }
        else s
      closingLoopF n (sweep s1)

/-- The outer while loop of the closing path.  After at most one pass the
cursor is at end, and every later pass removes at least the head entry, so
`queue length + 1` passes always suffice (certified by
`closingRun_queue_nil`). -/
def closingRun (s : LogState) : LogState :=
  closingLoopF (s.mLogQueue.length + 1) s

/-- One full iteration of the `while (true)` loop of `Log::serialize`, from
the return of the condition-variable wait (which re-acquired `mLogMutex`) to
the release of the `unique_lock` (or, on the closing path, the `break`). -/
def serializeStep (s : LogState) : LogState :=
  let s0 := { s with lockHeld := true }
  if s0.mClosing then
    let s1 := closingRun s0
    let s2 := flush s1
    { s2 with terminated := true, lockHeld := false }
  else
    { normalDrain s0 with lockHeld := false }

/-- Interleaving semantics: atomic transitions of the whole system.  A drain
step requires the wait predicate to hold (the condition-variable wait only
returns when it does) and the worker not to have exited its loop. -/
inductive Step : LogState → LogState → Prop where
  | write (tid : Nat) (txt : String) (fl : Bool) (s : LogState) :
      Step s (writeS tid txt fl s)
  | close (s : LogState) : Step s (requestClose s)
  | drain (s : LogState) :
      drainEnabled s = true → s.terminated = false →
      Step s (serializeStep s)

/-- States reachable from a freshly constructed `Log` at points where
`mLogMutex` is free. -/
inductive Reachable : LogState → Prop where
  | init : Reachable initState
  | step {s s2 : LogState} : Reachable s → Step s s2 → Reachable s2

/-- Reachability along executions in which every appended value renders
without a flush token and shutdown is never requested. -/
inductive NoFlushReach : LogState → Prop where
  | init : NoFlushReach initState
  | write {s : LogState} (tid : Nat) (txt : String) :
      NoFlushReach s → NoFlushReach (writeS tid txt false s)
  | drain {s : LogState} :
      NoFlushReach s → drainEnabled s = true → s.terminated = false →
      NoFlushReach (serializeStep s)

/-! ### Basic list and text lemmas -/

theorem joinTexts_nil : joinTexts [] = "" := rfl

theorem joinTexts_cons (e : LogEntry) (l : List LogEntry) :
    joinTexts (e :: l) = e.text ++ joinTexts l := rfl

theorem joinTexts_append (l1 l2 : List LogEntry) :
    joinTexts (l1 ++ l2) = joinTexts l1 ++ joinTexts l2 := by
  induction l1 with
  | nil => simp [joinTexts]
  | cons e l ih => simp [joinTexts_cons, ih, String.append_assoc]

theorem filterT_append (t : Nat) (l1 l2 : List LogEntry) :
    filterT t (l1 ++ l2) = filterT t l1 ++ filterT t l2 :=
  List.filter_append l1 l2

theorem filterT_cons (t : Nat) (e : LogEntry) (l : List LogEntry) :
    filterT t (e :: l) =
      if e.mThreadId = t then e :: filterT t l else filterT t l := by
  by_cases h : e.mThreadId = t <;> simp [filterT, List.filter_cons, h]

theorem filterT_nil (t : Nat) : filterT t [] = [] := rfl

theorem mem_filterT {t : Nat} {e : LogEntry} {l : List LogEntry} :
    e ∈ filterT t l ↔ e ∈ l ∧ e.mThreadId = t := by
  simp [filterT, List.mem_filter]

/-- Decompose a list at a position known to hold an element. -/
theorem queue_decomp {α : Type} (q : List α) (i : Nat) (e : α)
    (he : q[i]? = some e) : q = q.take i ++ e :: q.drop (i + 1) := by
  obtain ⟨h, h2⟩ := List.getElem?_eq_some.mp he
  conv_lhs => rw [← List.take_append_drop i q]
  rw [List.drop_eq_getElem_cons h, h2]

theorem getElem?_lt_length {α : Type} {q : List α} {i : Nat} {e : α}
    (he : q[i]? = some e) : i < q.length :=
  (List.getElem?_eq_some.mp he).1

/-- Erasing an entry does not disturb the entries of other threads. -/
theorem filterT_eraseIdx_ne (q : List LogEntry) (i : Nat) (e : LogEntry)
    (he : q[i]? = some e) (t : Nat) (ht : e.mThreadId ≠ t) :
    filterT t (q.eraseIdx i) = filterT t q := by
  conv_rhs => rw [queue_decomp q i e he]
  rw [List.eraseIdx_eq_take_drop_succ, filterT_append, filterT_append,
    filterT_cons, if_neg ht]

/-- If no entry before position `i` belongs to thread `e.mThreadId`, then the
entry at `i` is the first one of that thread, and erasing it removes exactly
the head of the thread's filtered sequence. -/
theorem filterT_first (q : List LogEntry) (i : Nat) (e : LogEntry)
    (he : q[i]? = some e)
    (hfo : ∀ j, j < i → ∀ e2, q[j]? = some e2 → e2.mThreadId ≠ e.mThreadId) :
    filterT e.mThreadId q = e :: filterT e.mThreadId (q.eraseIdx i) := by
  have htake : filterT e.mThreadId (q.take i) = [] := by
    refine List.filter_eq_nil_iff.mpr ?_
    intro a ha
    obtain ⟨j, hj⟩ := List.mem_iff_getElem?.mp ha
    rw [List.getElem?_take] at hj
    by_cases hji : j < i
    · rw [if_pos hji] at hj
      simpa using hfo j hji a hj
    · rw [if_neg hji] at hj
      exact absurd hj (by simp)
  conv_lhs => rw [queue_decomp q i e he]
  rw [List.eraseIdx_eq_take_drop_succ, filterT_append, filterT_append,
    filterT_cons, if_pos rfl, htake]
  simp

/-! ### `findFrom` specification (`std::find_if` from a position) -/

theorem findFromAux_some (t : Option Nat) (r : List LogEntry) (i j : Nat)
    (h : findFromAux t r i = some j) :
    i ≤ j ∧ (∃ e, r[j - i]? = some e ∧ t = some e.mThreadId) ∧
      ∀ k, k < j - i → ∀ e, r[k]? = some e → t ≠ some e.mThreadId := by
  induction r generalizing i with
  | nil => simp [findFromAux] at h
  | cons e r ih =>
    rw [findFromAux] at h
    by_cases ht : t = some e.mThreadId
    · rw [if_pos ht] at h
      obtain rfl : i = j := by simpa using h
      refine ⟨le_rfl, ⟨e, by simp, ht⟩, ?_⟩
      intro k hk
      omega
    · rw [if_neg ht] at h
      obtain ⟨hij, ⟨e2, he2, ht2⟩, hmin⟩ := ih (i + 1) h
      refine ⟨by omega, ⟨e2, ?_, ht2⟩, ?_⟩
      · have : j - i = (j - (i + 1)) + 1 := by omega
        rw [this]
        simpa using he2
      · intro k hk e3 he3
        match k, he3 with
        | 0, he3 =>
          obtain rfl : e = e3 := by simpa using he3
          exact ht
        | k + 1, he3 =>
          refine hmin k (by omega) e3 (by simpa using he3)

theorem findFromAux_none (t : Option Nat) (r : List LogEntry) (i : Nat)
    (h : findFromAux t r i = none) :
    ∀ e ∈ r, t ≠ some e.mThreadId := by
  induction r generalizing i with
  | nil => simp
  | cons e r ih =>
    rw [findFromAux] at h
    by_cases ht : t = some e.mThreadId
    · rw [if_pos ht] at h; cases h
    · rw [if_neg ht] at h
      intro a ha
      rcases List.mem_cons.mp ha with rfl | ha
      · exact ht
      · exact ih (i + 1) h a ha

theorem findFrom_some (t : Option Nat) (q : List LogEntry) (i j : Nat)
    (h : findFrom t q i = some j) :
    i ≤ j ∧ (∃ e, q[j]? = some e ∧ t = some e.mThreadId) ∧
      ∀ k, i ≤ k → k < j → ∀ e, q[k]? = some e → t ≠ some e.mThreadId := by
  obtain ⟨hij, ⟨e, he, ht⟩, hmin⟩ := findFromAux_some t (q.drop i) i j h
  rw [List.getElem?_drop] at he
  refine ⟨hij, ⟨e, by rwa [Nat.add_sub_cancel' hij] at he, ht⟩, ?_⟩
  intro k hik hkj e2 he2
  refine hmin (k - i) (by omega) e2 ?_
  rw [List.getElem?_drop, Nat.add_sub_cancel' hik]
  exact he2

theorem findFrom_none (t : Option Nat) (q : List LogEntry) (i : Nat)
    (h : findFrom t q i = none) :
    ∀ k, i ≤ k → ∀ e, q[k]? = some e → t ≠ some e.mThreadId := by
  intro k hik e he
  refine findFromAux_none t (q.drop i) i h e ?_
  refine List.mem_iff_getElem?.mpr ⟨k - i, ?_⟩
  rw [List.getElem?_drop, Nat.add_sub_cancel' hik]
  exact he

/-! ### `drainBody` case equations -/

theorem drainCond_true_iff (s : LogState) :
    drainCond s = true ↔
      ∃ i e, s.mCurrentLog = some i ∧ s.mLogQueue[i]? = some e ∧
        s.mCurrentThreadId = some e.mThreadId := by
  rcases hc : s.mCurrentLog with _ | i
  · simp [drainCond, hc]
  · rcases he : s.mLogQueue[i]? with _ | e
    · simp only [drainCond, hc, he]
      constructor
      · intro h; cases h
      · rintro ⟨i2, e2, hi2, he2, -⟩
        obtain rfl : i = i2 := by simpa using hi2
        rw [he] at he2; cases he2
    · simp only [drainCond, hc, he, decide_eq_true_eq]
      constructor
      · intro h
        exact ⟨i, e, rfl, he, h⟩
      · rintro ⟨i2, e2, hi2, he2, ht2⟩
        obtain rfl : i = i2 := by simpa using hi2
        rw [he] at he2
        obtain rfl : e = e2 := by simpa using he2
        exact ht2

theorem drainBody_of_cursor_none (s : LogState) (hc : s.mCurrentLog = none) :
    drainBody s = s := by
  simp only [drainBody, hc]

theorem drainBody_flush (s : LogState) (i : Nat) (e : LogEntry)
    (hc : s.mCurrentLog = some i) (he : s.mLogQueue[i]? = some e)
    (hf : (s.mFlushed || e.isFlush) = true) :
    drainBody s =
      match (s.mLogQueue.eraseIdx i).head? with
      | none =>
        { s with
          mLogQueue := s.mLogQueue.eraseIdx i
          mCurrentLog := none
          mCurrentThreadId := none
          mBuffer := ""
          chunk := []
          mFlushed := false
          sinkOut := s.sinkOut ++ [s.mBuffer ++ e.text]
          flushLog := s.flushLog ++
            [{ owner := s.mCurrentThreadId, chunk := s.chunk ++ [e],
               duringClose := s.mClosing, locked := s.lockHeld }] }
      | some e0 =>
        { s with
          mLogQueue := s.mLogQueue.eraseIdx i
          mCurrentLog := some 0
          mCurrentThreadId := some e0.mThreadId
          mBuffer := ""
          chunk := []
          mFlushed := false
          sinkOut := s.sinkOut ++ [s.mBuffer ++ e.text]
          flushLog := s.flushLog ++
            [{ owner := s.mCurrentThreadId, chunk := s.chunk ++ [e],
               duringClose := s.mClosing, locked := s.lockHeld }] } := by
  simp only [drainBody, hc, he, runFunctor, flush, hf, if_true]

theorem drainBody_noflush (s : LogState) (i : Nat) (e : LogEntry)
    (hc : s.mCurrentLog = some i) (he : s.mLogQueue[i]? = some e)
    (hf : (s.mFlushed || e.isFlush) = false) :
    drainBody s =
      { s with
        mLogQueue := s.mLogQueue.eraseIdx i
        mCurrentLog := findFrom s.mCurrentThreadId (s.mLogQueue.eraseIdx i) i
        mBuffer := s.mBuffer ++ e.text
        chunk := s.chunk ++ [e]
        mFlushed := false } := by
  simp only [drainBody, hc, he, runFunctor, hf, if_false, Bool.false_eq_true]

/-! ### `write` case equations -/

theorem write_owner_none (s : LogState) (tid : Nat) (txt : String) (fl : Bool)
    (h : s.mCurrentThreadId = none) :
    write tid txt fl s =
      ({ s with
         mLogQueue := s.mLogQueue ++ [LogEntry.mk tid txt fl]
         appendLog := s.appendLog ++ [LogEntry.mk tid txt fl]
         mCurrentLog := some 0
         mCurrentThreadId :=
           (s.mLogQueue ++ [LogEntry.mk tid txt fl]).head?.map LogEntry.mThreadId },
        true) := by
  simp only [write, h, if_true]

theorem write_owner_self (s : LogState) (tid : Nat) (txt : String) (fl : Bool)
    (h : s.mCurrentThreadId = some tid) :
    write tid txt fl s =
      ({ s with
         mLogQueue := s.mLogQueue ++ [LogEntry.mk tid txt fl]
         appendLog := s.appendLog ++ [LogEntry.mk tid txt fl]
         mCurrentLog :=
           if s.mCurrentLog = none then
             some ((s.mLogQueue ++ [LogEntry.mk tid txt fl]).length - 1)
           else s.mCurrentLog },
        true) := by
  simp only [write, h, if_true, reduceCtorEq, if_false]

theorem write_owner_other (s : LogState) (tid : Nat) (txt : String) (fl : Bool)
    (h1 : s.mCurrentThreadId ≠ none) (h2 : s.mCurrentThreadId ≠ some tid) :
    write tid txt fl s =
      ({ s with
         mLogQueue := s.mLogQueue ++ [LogEntry.mk tid txt fl]
         appendLog := s.appendLog ++ [LogEntry.mk tid txt fl] },
        false) := by
  simp only [write, h1, h2, if_false]

/-! ### Loop fuel lemmas -/

theorem drainCond_false_of_nil (s : LogState) (h : s.mLogQueue = []) :
    drainCond s = false := by
  rcases hc : s.mCurrentLog with _ | i
  · simp [drainCond, hc]
  · simp [drainCond, hc, h]

theorem drainBody_length (s : LogState) (h : drainCond s = true) :
    (drainBody s).mLogQueue.length + 1 = s.mLogQueue.length := by
  obtain ⟨i, e, hc, he, ht⟩ := (drainCond_true_iff s).mp h
  have hi := getElem?_lt_length he
  by_cases hf : (s.mFlushed || e.isFlush) = true
  · rw [drainBody_flush s i e hc he hf]
    rcases hh : (s.mLogQueue.eraseIdx i).head? with _ | e0 <;>
      simp [hh, List.length_eraseIdx, hi] <;> omega
  · rw [drainBody_noflush s i e hc he (by simpa using hf)]
    simp [List.length_eraseIdx, hi]
    omega

theorem drainWhileF_cond_false (n : Nat) (s : LogState)
    (h : drainCond s = false) : drainWhileF n s = s := by
  cases n <;> simp [drainWhileF, h]

theorem drainWhileF_fuel (n m : Nat) (s : LogState)
    (hn : s.mLogQueue.length ≤ n) (hm : s.mLogQueue.length ≤ m) :
    drainWhileF n s = drainWhileF m s := by
  induction n generalizing m s with
  | zero =>
    have h0 : drainCond s = false := by
      rcases hcond : drainCond s with _ | _
      · rfl
      · obtain ⟨i, e, hc, he, -⟩ := (drainCond_true_iff s).mp hcond
        have := getElem?_lt_length he
        omega
    rw [drainWhileF_cond_false 0 s h0, drainWhileF_cond_false m s h0]
  | succ n ih =>
    rcases hcond : drainCond s with _ | _
    · rw [drainWhileF_cond_false (n + 1) s hcond,
        drainWhileF_cond_false m s hcond]
    · have hlen := drainBody_length s hcond
      rcases m with _ | m
      · have hi := (drainCond_true_iff s).mp hcond
        obtain ⟨i, e, hc, he, -⟩ := hi
        have := getElem?_lt_length he
        omega
      · rw [drainWhileF, drainWhileF, if_pos hcond, if_pos hcond]
        exact ih m (drainBody s) (by omega) (by omega)

/-- The do-while loop of the normal path, with queue-length fuel, satisfies
the genuine do-while fixpoint equation: the fuel never runs out. -/
theorem drainWhileF_fix (s : LogState) :
    drainWhileF s.mLogQueue.length s =
      if drainCond s then
        drainWhileF (drainBody s).mLogQueue.length (drainBody s)
      else s := by
  rcases hcond : drainCond s with _ | _
  · simp only [Bool.false_eq_true, if_false]
    exact drainWhileF_cond_false _ s hcond
  · have hlen := drainBody_length s hcond
    simp only [if_true]
    rcases hq : s.mLogQueue.length with _ | n
    · rw [hq] at hlen; omega
    · rw [drainWhileF, if_pos hcond]
      exact drainWhileF_fuel n _ (drainBody s) (by omega) le_rfl

/-! ### The global invariant -/

/-- Facts about every already-recorded flush event from the normal (non
closing) path: it was emitted on behalf of one owner thread `t`, its entries
are all `t`'s, the last one is a flush token, and, together with all entries
of earlier events, `t`'s part of the emission history is a prefix of `t`'s
append history. -/
def FlushLogGood (fl : List FlushEvent) (alog : List LogEntry) : Prop :=
  ∀ k f, fl[k]? = some f → f.duringClose = false →
    ∃ t, f.owner = some t ∧ f.chunk ≠ [] ∧
      (∀ e ∈ f.chunk, e.mThreadId = t) ∧
      (∃ e, f.chunk.getLast? = some e ∧ e.isFlush = true) ∧
      ∃ u, filterT t alog =
        filterT t (((fl.take (k + 1)).map FlushEvent.chunk).flatten) ++ u

/-- The scheduler invariant, holding in every reachable state (i.e. at every
point where `mLogMutex` is free, and at every do-while loop boundary of the
normal drain path). -/
structure Good (s : LogState) : Prop where
  cursorValid : ∀ i, s.mCurrentLog = some i →
    ∃ e, s.mLogQueue[i]? = some e ∧ s.mCurrentThreadId = some e.mThreadId
  ownerNone : s.mCurrentThreadId = none →
    s.mLogQueue = [] ∧ s.mCurrentLog = none ∧ s.chunk = []
  notMidFlush : s.mFlushed = false
  chunkOwner : ∀ e ∈ s.chunk, s.mCurrentThreadId = some e.mThreadId
  bufferEq : s.mBuffer = joinTexts s.chunk
  account : ∀ t,
    filterT t (histFlat s) ++ filterT t s.chunk ++ filterT t s.mLogQueue =
      filterT t s.appendLog
  firstOwner : ∀ i, s.mCurrentLog = some i →
    ∀ j, j < i → ∀ e, s.mLogQueue[j]? = some e →
      s.mCurrentThreadId ≠ some e.mThreadId
  ownerDry : s.mCurrentLog = none →
    ∀ e ∈ s.mLogQueue, s.mCurrentThreadId ≠ some e.mThreadId
  outputsEq : s.sinkOut = s.flushLog.map (fun f => joinTexts f.chunk)
  flushLogGood : FlushLogGood s.flushLog s.appendLog
  locksTrue : ∀ f ∈ s.flushLog, f.locked = true

theorem good_init : Good initState := by
  refine ⟨?_, ?_, rfl, ?_, rfl, ?_, ?_, ?_, rfl, ?_, ?_⟩ <;>
    simp [initState, FlushLogGood, filterT, histFlat]

/-! ### Stability of `FlushLogGood` -/

theorem flushLogGood_alog_append (fl : List FlushEvent)
    (alog l2 : List LogEntry) (h : FlushLogGood fl alog) :
    FlushLogGood fl (alog ++ l2) := by
  intro k f hk hnc
  obtain ⟨t, h1, h2, h3, h4, u, h5⟩ := h k f hk hnc
  exact ⟨t, h1, h2, h3, h4, u ++ filterT t l2, by
    rw [filterT_append, h5, List.append_assoc]⟩

theorem getElem?_append_left' {α : Type} (q : List α) (r : List α) (j : Nat)
    (h : j < q.length) : (q ++ r)[j]? = q[j]? := by
  rw [List.getElem?_append, if_pos h]

theorem getElem?_append_length {α : Type} (q : List α) (e : α) :
    (q ++ [e])[q.length]? = some e := by
  rw [List.getElem?_append, if_neg (by omega)]
  simp

theorem flushLogGood_snoc (fl : List FlushEvent) (alog : List LogEntry)
    (f : FlushEvent) (h : FlushLogGood fl alog)
    (hf : f.duringClose = false →
      ∃ t, f.owner = some t ∧ f.chunk ≠ [] ∧
        (∀ e ∈ f.chunk, e.mThreadId = t) ∧
        (∃ e, f.chunk.getLast? = some e ∧ e.isFlush = true) ∧
        ∃ u, filterT t alog =
          filterT t ((fl.map FlushEvent.chunk).flatten ++ f.chunk) ++ u) :
    FlushLogGood (fl ++ [f]) alog := by
  intro k g hk hnc
  rcases lt_trichotomy k fl.length with hlt | heq | hgt
  · rw [getElem?_append_left' fl [f] k hlt] at hk
    obtain ⟨t, h1, h2, h3, h4, u, h5⟩ := h k g hk hnc
    refine ⟨t, h1, h2, h3, h4, u, ?_⟩
    rw [List.take_append_eq_append_take, Nat.sub_eq_zero_of_le (by omega)]
    simpa using h5
  · subst heq
    rw [getElem?_append_length fl f] at hk
    obtain rfl : f = g := by simpa using hk
    obtain ⟨t, h1, h2, h3, h4, u, h5⟩ := hf hnc
    refine ⟨t, h1, h2, h3, h4, u, ?_⟩
    rw [List.take_of_length_le (by simp),
      show ((fl ++ [f]).map FlushEvent.chunk).flatten
          = (fl.map FlushEvent.chunk).flatten ++ f.chunk by simp]
    exact h5
  · rw [List.getElem?_append, if_neg (show ¬ k < fl.length by omega)] at hk
    have hge : 1 ≤ k - fl.length := by omega
    rcases hkk : k - fl.length with _ | m
    · omega
    · rw [hkk] at hk
      simp at hk

/-! ### `write` preserves the invariant -/

theorem account_append (s : LogState) (e : LogEntry)
    (hacc : ∀ t,
      filterT t (histFlat s) ++ filterT t s.chunk ++ filterT t s.mLogQueue =
        filterT t s.appendLog) :
    ∀ t,
      filterT t (histFlat s) ++ filterT t s.chunk ++
          filterT t (s.mLogQueue ++ [e]) =
        filterT t (s.appendLog ++ [e]) := by
  intro t
  rw [filterT_append, filterT_append, ← List.append_assoc, hacc t]

theorem mem_of_getElem?_eq_some {α : Type} {q : List α} {j : Nat} {e : α}
    (h : q[j]? = some e) : e ∈ q :=
  List.mem_iff_getElem?.mpr ⟨j, h⟩

theorem good_writeS (s : LogState) (tid : Nat) (txt : String) (fl : Bool)
    (hg : Good s) : Good (writeS tid txt fl s) := by
  by_cases h : s.mCurrentThreadId = none
  · -- the queue is empty (invariant), the caller claims the floor
    obtain ⟨hq, hcur, hch⟩ := hg.ownerNone h
    have hhead :
        (s.mLogQueue ++ [LogEntry.mk tid txt fl]).head?.map
          LogEntry.mThreadId = some tid := by
      rw [hq]; rfl
    simp only [writeS, write_owner_none s tid txt fl h]
    refine ⟨?_, ?_, hg.notMidFlush, ?_, hg.bufferEq,
      account_append s _ hg.account, ?_, ?_, hg.outputsEq,
      flushLogGood_alog_append _ _ _ hg.flushLogGood, hg.locksTrue⟩
    · intro i hi
      obtain rfl : (0 : Nat) = i := by simpa using hi
      exact ⟨LogEntry.mk tid txt fl, by simp [hq], by simp [hq]⟩
    · intro h0
      rw [hhead] at h0
      simp at h0
    · intro e' he'
      rw [hch] at he'
      simp at he'
    · intro i hi j hj
      obtain rfl : (0 : Nat) = i := by simpa using hi
      omega
    · intro h0
      simp at h0
  · rcases h2 : s.mCurrentThreadId with _ | t0
    · exact absurd h2 h
    by_cases h3 : t0 = tid
    · -- the caller already owns the floor
      subst h3
      simp only [writeS, write_owner_self s t0 txt fl h2]
      rcases hcur : s.mCurrentLog with _ | i0
      · -- cursor at end: it moves to the appended entry
        have hdry := hg.ownerDry hcur
        simp only [if_pos rfl]
        refine ⟨?_, ?_, hg.notMidFlush, hg.chunkOwner, hg.bufferEq,
          account_append s _ hg.account, ?_, ?_, hg.outputsEq,
          flushLogGood_alog_append _ _ _ hg.flushLogGood, hg.locksTrue⟩
        · intro i hi
          obtain rfl : s.mLogQueue.length = i := by
            simpa using hi
          exact ⟨LogEntry.mk t0 txt fl, getElem?_append_length _ _, h2⟩
        · intro h0
          rw [h2] at h0
          cases h0
        · intro i hi j hj e2 he2
          obtain rfl : s.mLogQueue.length = i := by
            simpa using hi
          rw [getElem?_append_left' _ _ j hj] at he2
          exact hdry e2 (mem_of_getElem?_eq_some he2)
        · intro h0
          simp at h0
      · -- cursor already points at pending work: unchanged
        simp only [hcur, reduceCtorEq, if_false]
        obtain ⟨e1, he1, ht1⟩ := hg.cursorValid i0 hcur
        have hi0 := getElem?_lt_length he1
        refine ⟨?_, ?_, hg.notMidFlush, hg.chunkOwner, hg.bufferEq,
          account_append s _ hg.account, ?_, ?_, hg.outputsEq,
          flushLogGood_alog_append _ _ _ hg.flushLogGood, hg.locksTrue⟩
        · intro i hi
          obtain rfl : i0 = i := by simpa using hi
          exact ⟨e1, by rwa [getElem?_append_left' _ _ i0 hi0], ht1⟩
        · intro h0
          rw [h2] at h0
          cases h0
        · intro i hi j hj e2 he2
          obtain rfl : i0 = i := by simpa using hi
          rw [getElem?_append_left' _ _ j (by omega)] at he2
          exact hg.firstOwner i0 hcur j hj e2 he2
        · intro h0
          simp [hcur] at h0
    · -- another thread owns the floor: enqueue only
      have h4 : s.mCurrentThreadId ≠ some tid := by
        rw [h2]
        intro hx
        exact h3 (by simpa using hx)
      simp only [writeS, write_owner_other s tid txt fl h h4]
      refine ⟨?_, ?_, hg.notMidFlush, hg.chunkOwner, hg.bufferEq,
        account_append s _ hg.account, ?_, ?_, hg.outputsEq,
        flushLogGood_alog_append _ _ _ hg.flushLogGood, hg.locksTrue⟩
      · intro i hi
        obtain ⟨e1, he1, ht1⟩ := hg.cursorValid i hi
        exact ⟨e1,
          by rwa [getElem?_append_left' _ _ i (getElem?_lt_length he1)], ht1⟩
      · intro h0
        exact absurd h0 h
      · intro i hi j hj e2 he2
        obtain ⟨e1, he1, ht1⟩ := hg.cursorValid i hi
        have := getElem?_lt_length he1
        rw [getElem?_append_left' _ _ j (by omega)] at he2
        exact hg.firstOwner i hi j hj e2 he2
      · intro h0 e2 he2
        rcases List.mem_append.mp he2 with hmem | hmem
        · exact hg.ownerDry h0 e2 hmem
        · obtain rfl : e2 = LogEntry.mk tid txt fl := by simpa using hmem
          exact h4

/-! ### `requestClose` preserves the invariant -/

theorem good_requestClose (s : LogState) (hg : Good s) :
    Good (requestClose s) :=
  ⟨hg.cursorValid, hg.ownerNone, hg.notMidFlush, hg.chunkOwner, hg.bufferEq,
    hg.account, hg.firstOwner, hg.ownerDry, hg.outputsEq, hg.flushLogGood,
    hg.locksTrue⟩

/-! ### One normal-path drain iteration preserves the invariant -/

theorem account_exec (s : LogState) (i : Nat) (e : LogEntry)
    (he : s.mLogQueue[i]? = some e)
    (hfo : ∀ j, j < i → ∀ e2, s.mLogQueue[j]? = some e2 →
      e2.mThreadId ≠ e.mThreadId)
    (hacc : ∀ t,
      filterT t (histFlat s) ++ filterT t s.chunk ++ filterT t s.mLogQueue =
        filterT t s.appendLog) :
    ∀ t,
      filterT t (histFlat s) ++ filterT t (s.chunk ++ [e]) ++
          filterT t (s.mLogQueue.eraseIdx i) =
        filterT t s.appendLog := by
  intro t
  by_cases hte : e.mThreadId = t
  · subst hte
    have h1 : filterT e.mThreadId [e] = [e] := by simp [filterT]
    rw [filterT_append, h1, ← hacc e.mThreadId,
      filterT_first _ i e he hfo]
    simp [List.append_assoc]
  · have h1 : filterT t [e] = [] := by simp [filterT, hte]
    rw [filterT_eraseIdx_ne _ i e he t hte, filterT_append, h1,
      List.append_nil, ← hacc t]

theorem good_drainBody (s : LogState) (hg : Good s) (hcl : s.mClosing = false)
    (hlk : s.lockHeld = true) (hcond : drainCond s = true) :
    Good (drainBody s) ∧ (drainBody s).mClosing = false ∧
      (drainBody s).lockHeld = true ∧
      (drainBody s).appendLog = s.appendLog := by
  obtain ⟨i, e, hc, he, ht⟩ := (drainCond_true_iff s).mp hcond
  have hi := getElem?_lt_length he
  have hfl : (s.mFlushed || e.isFlush) = e.isFlush := by
    rw [hg.notMidFlush]; simp
  have hfo : ∀ j, j < i → ∀ e2, s.mLogQueue[j]? = some e2 →
      e2.mThreadId ≠ e.mThreadId := by
    intro j hj e2 he2 hx
    exact hg.firstOwner i hc j hj e2 he2 (by rw [ht, hx])
  have hchunkAll : ∀ x ∈ s.chunk ++ [e], x.mThreadId = e.mThreadId := by
    intro x hx
    rcases List.mem_append.mp hx with hx | hx
    · have := hg.chunkOwner x hx
      rw [ht] at this
      exact (Option.some_inj.mp this).symm
    · obtain rfl : x = e := by simpa using hx
      rfl
  have hacc2 := account_exec s i e he hfo hg.account
  by_cases hef : e.isFlush = true
  · -- the executed entry flushes
    rw [drainBody_flush s i e hc he (by rw [hfl, hef])]
    have hflgood : FlushLogGood
        (s.flushLog ++
          [{ owner := s.mCurrentThreadId, chunk := s.chunk ++ [e],
             duringClose := s.mClosing, locked := s.lockHeld }])
        s.appendLog := by
      refine flushLogGood_snoc _ _ _ hg.flushLogGood ?_
      intro _
      refine ⟨e.mThreadId, ht, by simp, hchunkAll,
        ⟨e, List.getLast?_concat _, hef⟩,
        filterT e.mThreadId (s.mLogQueue.eraseIdx i), ?_⟩
      rw [← hacc2 e.mThreadId]
      rw [show ((s.flushLog.map FlushEvent.chunk).flatten ++
            (s.chunk ++ [e])) = histFlat s ++ (s.chunk ++ [e]) from rfl]
      simp [filterT_append, List.append_assoc]
    have hlocks : ∀ f ∈ s.flushLog ++
        [FlushEvent.mk s.mCurrentThreadId (s.chunk ++ [e]) s.mClosing
          s.lockHeld],
        f.locked = true := by
      intro f hf
      rcases List.mem_append.mp hf with hf | hf
      · exact hg.locksTrue f hf
      · obtain rfl : f = FlushEvent.mk s.mCurrentThreadId (s.chunk ++ [e])
            s.mClosing s.lockHeld := by simpa using hf
        exact hlk
    have houtputs :
        s.sinkOut ++ [s.mBuffer ++ e.text] =
          (s.flushLog ++
            [FlushEvent.mk s.mCurrentThreadId (s.chunk ++ [e]) s.mClosing
              s.lockHeld]).map
            (fun f => joinTexts f.chunk) := by
      rw [List.map_append, ← hg.outputsEq, hg.bufferEq]
      have hj : joinTexts (s.chunk ++ [e]) = joinTexts s.chunk ++ e.text := by
        rw [joinTexts_append, joinTexts_cons, joinTexts_nil]
        simp
      simp [hj]
    rcases hh : (s.mLogQueue.eraseIdx i).head? with _ | e0
    · -- the queue is now empty: clear the owner
      have hqe : s.mLogQueue.eraseIdx i = [] := by
        rwa [List.head?_eq_none_iff] at hh
      simp only [hh]
      refine ⟨⟨?_, ?_, rfl, ?_, rfl, ?_, ?_, ?_, houtputs, hflgood, hlocks⟩,
        hcl, hlk, trivial⟩
      · intro i' hi'
        simp at hi'
      · exact fun _ => ⟨hqe, rfl, rfl⟩
      · intro x hx
        simp at hx
      · intro t
        rw [show histFlat
              { s with
                mLogQueue := s.mLogQueue.eraseIdx i
                mCurrentLog := none
                mCurrentThreadId := none
                mBuffer := ""
                chunk := []
                mFlushed := false
                sinkOut := s.sinkOut ++ [s.mBuffer ++ e.text]
                flushLog := s.flushLog ++
                  [{ owner := s.mCurrentThreadId, chunk := s.chunk ++ [e],
                     duringClose := s.mClosing, locked := s.lockHeld }] } =
            histFlat s ++ (s.chunk ++ [e]) by simp [histFlat]]
        rw [filterT_append, filterT_nil, List.append_nil, ← hacc2 t]
      · intro i' hi'
        simp at hi'
      · intro _ x hx
        rw [hqe] at hx
        simp at hx
    · -- rotate: the new owner is the thread of the new queue head
      simp only [hh]
      refine ⟨⟨?_, ?_, rfl, ?_, rfl, ?_, ?_, ?_, houtputs, hflgood, hlocks⟩,
        hcl, hlk, trivial⟩
      · intro i' hi'
        obtain rfl : (0 : Nat) = i' := by simpa using hi'
        exact ⟨e0, by rwa [← List.head?_eq_getElem?], rfl⟩
      · intro h0
        simp at h0
      · intro x hx
        simp at hx
      · intro t
        rw [show histFlat
              { s with
                mLogQueue := s.mLogQueue.eraseIdx i
                mCurrentLog := some 0
                mCurrentThreadId := some e0.mThreadId
                mBuffer := ""
                chunk := []
                mFlushed := false
                sinkOut := s.sinkOut ++ [s.mBuffer ++ e.text]
                flushLog := s.flushLog ++
                  [{ owner := s.mCurrentThreadId, chunk := s.chunk ++ [e],
                     duringClose := s.mClosing, locked := s.lockHeld }] } =
            histFlat s ++ (s.chunk ++ [e]) by simp [histFlat]]
        rw [filterT_append, filterT_nil, List.append_nil, ← hacc2 t]
      · intro i' hi' j hj e2 he2
        obtain rfl : (0 : Nat) = i' := by simpa using hi'
        omega
      · intro h0
        simp at h0
  · -- no flush: erase and advance the cursor to the owner's next entry
    have hef' : e.isFlush = false := by
      simpa using hef
    rw [drainBody_noflush s i e hc he (by rw [hfl, hef'])]
    refine ⟨⟨?_, ?_, rfl, ?_, ?_, ?_, ?_, ?_, hg.outputsEq, hg.flushLogGood,
      hg.locksTrue⟩, hcl, hlk, rfl⟩
    · intro i' hi'
      obtain ⟨-, ⟨e2, he2, ht2⟩, -⟩ :=
        findFrom_some s.mCurrentThreadId (s.mLogQueue.eraseIdx i) i i' hi'
      exact ⟨e2, he2, ht2⟩
    · intro h0
      obtain ⟨hq0, -, -⟩ := hg.ownerNone h0
      rw [hq0] at he
      simp at he
    · intro x hx
      rcases List.mem_append.mp hx with hx | hx
      · exact hg.chunkOwner x hx
      · obtain rfl : x = e := by simpa using hx
        exact ht
    · rw [hg.bufferEq, joinTexts_append]
      simp [joinTexts]
    · exact hacc2
    · intro i' hi' j hj e2 he2
      obtain ⟨hii', -, hmin⟩ :=
        findFrom_some s.mCurrentThreadId (s.mLogQueue.eraseIdx i) i i' hi'
      by_cases hji : j < i
      · rw [List.getElem?_eraseIdx, if_pos hji] at he2
        exact hg.firstOwner i hc j hji e2 he2
      · exact hmin j (by omega) hj e2 he2
    · intro h0 e2 he2
      obtain ⟨k, hk⟩ := List.mem_iff_getElem?.mp he2
      by_cases hki : k < i
      · rw [List.getElem?_eraseIdx, if_pos hki] at hk
        exact hg.firstOwner i hc k hki e2 hk
      · exact findFrom_none s.mCurrentThreadId (s.mLogQueue.eraseIdx i) i h0
          k (by omega) e2 hk

/-! ### The normal drain path preserves the invariant -/

theorem good_setLock (s : LogState) (b : Bool) (hg : Good s) :
    Good { s with lockHeld := b } :=
  ⟨hg.cursorValid, hg.ownerNone, hg.notMidFlush, hg.chunkOwner, hg.bufferEq,
    hg.account, hg.firstOwner, hg.ownerDry, hg.outputsEq, hg.flushLogGood,
    hg.locksTrue⟩

theorem good_drainWhileF (n : Nat) (s : LogState) (hg : Good s)
    (hcl : s.mClosing = false) (hlk : s.lockHeld = true) :
    Good (drainWhileF n s) ∧ (drainWhileF n s).mClosing = false ∧
      (drainWhileF n s).lockHeld = true := by
  induction n generalizing s with
  | zero => exact ⟨hg, hcl, hlk⟩
  | succ n ih =>
    rcases hcond : drainCond s with _ | _
    · simp only [drainWhileF, hcond, Bool.false_eq_true, if_false]
      exact ⟨hg, hcl, hlk⟩
    · have hb := good_drainBody s hg hcl hlk hcond
      simp only [drainWhileF, hcond, if_true]
      exact ih (drainBody s) hb.1 hb.2.1 hb.2.2.1

theorem good_normalDrain (s : LogState) (hg : Good s)
    (hcl : s.mClosing = false) (hlk : s.lockHeld = true) :
    Good (normalDrain s) ∧ (normalDrain s).mClosing = false ∧
      (normalDrain s).lockHeld = true := by
  unfold normalDrain
  rcases hcond : drainCond s with _ | _
  · have hb : drainBody s = s := by
      rcases hc : s.mCurrentLog with _ | i
      · exact drainBody_of_cursor_none s hc
      · obtain ⟨e, he, ht⟩ := hg.cursorValid i hc
        exact absurd ((drainCond_true_iff s).mpr ⟨i, e, hc, he, ht⟩)
          (by rw [hcond]; simp)
    rw [hb]
    exact good_drainWhileF _ s hg hcl hlk
  · have hb := good_drainBody s hg hcl hlk hcond
    exact good_drainWhileF _ (drainBody s) hb.1 hb.2.1 hb.2.2.1

theorem good_serializeStep_normal (s : LogState) (hg : Good s)
    (hcl : s.mClosing = false) : Good (serializeStep s) := by
  have hn := good_normalDrain { s with lockHeld := true }
    (good_setLock s true hg) hcl rfl
  have hres : serializeStep s =
      { normalDrain { s with lockHeld := true } with lockHeld := false } := by
    unfold serializeStep
    rw [if_neg (by simpa using hcl)]
  rw [hres]
  exact good_setLock _ false hn.1

/-! ### The inner closing sweep: characterisation -/

/-- The Bool form of the ownership test `mCurrentThreadId == e.mThreadId`. -/
def ownP (t : Option Nat) (e : LogEntry) : Bool :=
  decide (t = some e.mThreadId)

theorem ownP_true {t : Option Nat} {e : LogEntry} (h : t = some e.mThreadId) :
    ownP t e = true := decide_eq_true h

theorem ownP_false {t : Option Nat} {e : LogEntry}
    (h : ¬t = some e.mThreadId) : ownP t e = false := by
  simp [ownP, h]

theorem sweepF_cursor_none (n : Nat) (s : LogState)
    (hc : s.mCurrentLog = none) : sweepF n s = s := by
  cases n
  · rfl
  · simp only [sweepF, hc]

theorem sweepF_spec (n : Nat) (s : LogState) (i : Nat)
    (hc : s.mCurrentLog = some i) (hn : s.mLogQueue.length - i < n) :
    sweepF n s =
      { s with
        mLogQueue := s.mLogQueue.take i ++
          (s.mLogQueue.drop i).filter
            (fun e => !(ownP s.mCurrentThreadId e))
        mCurrentLog := none
        mBuffer := s.mBuffer ++
          joinTexts ((s.mLogQueue.drop i).filter (ownP s.mCurrentThreadId))
        chunk := s.chunk ++
          (s.mLogQueue.drop i).filter (ownP s.mCurrentThreadId)
        mFlushed := s.mFlushed ||
          ((s.mLogQueue.drop i).filter
            (ownP s.mCurrentThreadId)).any LogEntry.isFlush } := by
  induction n generalizing s i with
  | zero => omega
  | succ n ih =>
    rcases he : s.mLogQueue[i]? with _ | e
    · -- past the end: the loop exits at once
      have hil : s.mLogQueue.length ≤ i := by
        by_contra hlt
        rw [List.getElem?_eq_getElem (by omega)] at he
        cases he
      have hdrop : s.mLogQueue.drop i = [] := by
        rw [List.drop_eq_nil_iff]
        omega
      have htake : s.mLogQueue.take i = s.mLogQueue :=
        List.take_of_length_le hil
      simp only [sweepF, hc, he, hdrop, htake, List.filter_nil,
        List.append_nil, List.any_nil, Bool.or_false, joinTexts_nil,
        String.append_empty]
    · have hi := getElem?_lt_length he
      have hdrop : s.mLogQueue.drop i = e :: s.mLogQueue.drop (i + 1) := by
        obtain ⟨h', he'⟩ := List.getElem?_eq_some.mp he
        rw [List.drop_eq_getElem_cons h', he']
      by_cases hown : s.mCurrentThreadId = some e.mThreadId
      · -- entry belongs to the current group: execute and erase
        have htlen : (s.mLogQueue.take i).length = i := by
          rw [List.length_take]
          omega
        have herase : s.mLogQueue.eraseIdx i =
            s.mLogQueue.take i ++ s.mLogQueue.drop (i + 1) :=
          List.eraseIdx_eq_take_drop_succ _ _
        simp only [sweepF, hc, he, if_pos hown, runFunctor]
        by_cases hlt : i < (s.mLogQueue.eraseIdx i).length
        · simp only [if_pos hlt]
          rw [ih _ i rfl (by
            rw [List.length_eraseIdx, if_pos hi]
            omega)]
          have h1 : (s.mLogQueue.eraseIdx i).take i = s.mLogQueue.take i := by
            rw [herase, List.take_append_eq_append_take,
              List.take_of_length_le (le_of_eq htlen), htlen, Nat.sub_self,
              List.take_zero, List.append_nil]
          have h2 : (s.mLogQueue.eraseIdx i).drop i =
              s.mLogQueue.drop (i + 1) := by
            rw [herase, List.drop_append_eq_append_drop,
              List.drop_eq_nil_iff.mpr (le_of_eq htlen), htlen, Nat.sub_self,
              List.drop_zero, List.nil_append]
          rw [h1, h2, hdrop]
          simp only [List.filter_cons, ownP_true hown, Bool.not_true,
            if_true, if_false, joinTexts_cons, List.any_cons]
          simp [List.append_assoc, String.append_assoc, Bool.or_assoc]
        · -- the erased entry was the last one: cursor is at end
          have hB : s.mLogQueue.drop (i + 1) = [] := by
            rw [List.length_eraseIdx, if_pos hi] at hlt
            rw [List.drop_eq_nil_iff]
            omega
          simp only [if_neg hlt]
          rw [sweepF_cursor_none n _ rfl, hdrop, hB, herase, hB]
          simp only [List.filter_cons, ownP_true hown, Bool.not_true,
            if_true, if_false, List.filter_nil, List.append_nil,
            joinTexts_cons, joinTexts_nil, List.any_cons, List.any_nil]
          simp [String.append_empty]
      · -- entry of another thread: skip it
        simp only [sweepF, hc, he, if_neg hown]
        by_cases hlt2 : i + 1 < s.mLogQueue.length
        · simp only [if_pos hlt2]
          rw [ih { s with mCurrentLog := some (i + 1) } (i + 1) rfl
            (show s.mLogQueue.length - (i + 1) < n by omega)]
          have htakes : s.mLogQueue.take (i + 1) =
              s.mLogQueue.take i ++ [e] := by
            rw [List.take_succ, he]
            rfl
          rw [htakes, hdrop]
          simp only [List.filter_cons, ownP_false hown, Bool.not_false,
            if_true, if_false]
          simp [List.append_assoc]
        · -- the skipped entry was the last one: cursor is at end
          have hB2 : s.mLogQueue.drop (i + 1) = [] := by
            rw [List.drop_eq_nil_iff]
            omega
          simp only [if_neg hlt2]
          rw [sweepF_cursor_none n _ rfl, hdrop, hB2]
          have hq : s.mLogQueue.take i ++
              List.filter (fun x => !(ownP s.mCurrentThreadId x)) [e] =
              s.mLogQueue := by
            rw [List.filter_cons, ownP_false hown]
            simp only [Bool.not_false, if_true, List.filter_nil]
            conv_rhs => rw [queue_decomp _ i e he, hB2]
          rw [hq]
          simp [List.filter_cons, ownP_false hown, joinTexts_nil,
            String.append_empty]

theorem sweep_spec (s : LogState) (i : Nat) (hc : s.mCurrentLog = some i) :
    sweep s =
      { s with
        mLogQueue := s.mLogQueue.take i ++
          (s.mLogQueue.drop i).filter
            (fun e => !(ownP s.mCurrentThreadId e))
        mCurrentLog := none
        mBuffer := s.mBuffer ++
          joinTexts ((s.mLogQueue.drop i).filter (ownP s.mCurrentThreadId))
        chunk := s.chunk ++
          (s.mLogQueue.drop i).filter (ownP s.mCurrentThreadId)
        mFlushed := s.mFlushed ||
          ((s.mLogQueue.drop i).filter
            (ownP s.mCurrentThreadId)).any LogEntry.isFlush } :=
  sweepF_spec _ s i hc (by omega)

theorem sweep_cursor_none (s : LogState) (hc : s.mCurrentLog = none) :
    sweep s = s :=
  sweepF_cursor_none _ s hc

theorem ownP_some (t : Nat) (x : LogEntry) :
    ownP (some t) x = (x.mThreadId == t) := by
  by_cases h : x.mThreadId = t
  · simp [ownP, h]
  · simp [ownP, h, Ne.symm h]

/-! ### The closing drain order: full groups, head thread first -/

/-- The order in which the closing path executes a queue whose cursor is at
end: take the head entry's thread, execute all its entries in queue order,
remove them, repeat. -/
def drainAll : List LogEntry → List LogEntry
  | [] => []
  | e :: r =>
    filterT e.mThreadId (e :: r) ++
      drainAll ((e :: r).filter (fun x => !(x.mThreadId == e.mThreadId)))
termination_by l => l.length
decreasing_by
  simp only [List.filter_cons, beq_self_eq_true, Bool.not_true,
    Bool.false_eq_true, if_false, List.length_cons]
  exact Nat.lt_succ_of_le (List.length_filter_le _ r)

theorem filterT_filter_ne (q : List LogEntry) (t t1 : Nat) (h : t ≠ t1) :
    filterT t (q.filter (fun x => !(x.mThreadId == t1))) = filterT t q := by
  rw [filterT, filterT, List.filter_filter]
  refine List.filter_congr ?_
  intro x _
  by_cases hxt : x.mThreadId = t
  · simp [hxt, h]
  · simp [hxt]

theorem filterT_self_filter (q : List LogEntry) (t1 : Nat) :
    filterT t1 (q.filter (fun x => !(x.mThreadId == t1))) = [] := by
  refine List.filter_eq_nil_iff.mpr ?_
  intro x hx
  obtain ⟨-, hx2⟩ := List.mem_filter.mp hx
  simp only [Bool.not_eq_true'] at hx2
  simp [hx2]

theorem filterT_idem (q : List LogEntry) (t : Nat) :
    filterT t (filterT t q) = filterT t q := by
  rw [filterT, filterT, List.filter_filter]
  exact List.filter_congr fun x _ => Bool.and_self _

theorem filterT_other (q : List LogEntry) (t t1 : Nat) (h : t ≠ t1) :
    filterT t (filterT t1 q) = [] := by
  refine List.filter_eq_nil_iff.mpr ?_
  intro x hx
  obtain ⟨-, hx2⟩ := List.mem_filter.mp hx
  have hxt1 : x.mThreadId = t1 := by simpa using hx2
  rw [hxt1]
  simp [Ne.symm h]

theorem drainAll_filterT (q : List LogEntry) :
    ∀ t, filterT t (drainAll q) = filterT t q := by
  induction q using drainAll.induct with
  | case1 => intro t; simp [drainAll]
  | case2 e r ih =>
    intro t
    rw [drainAll, filterT_append, ih t]
    by_cases h : t = e.mThreadId
    · subst h
      rw [filterT_idem, filterT_self_filter, List.append_nil]
    · rw [filterT_other _ _ _ h, filterT_filter_ne _ _ _ h,
        List.nil_append]

theorem drainAll_perm (q : List LogEntry) : (drainAll q).Perm q := by
  induction q using drainAll.induct with
  | case1 => simp [drainAll]
  | case2 e r ih =>
    rw [drainAll]
    calc filterT e.mThreadId (e :: r) ++
          drainAll ((e :: r).filter (fun x => !(x.mThreadId == e.mThreadId)))
        |>.Perm (filterT e.mThreadId (e :: r) ++
          (e :: r).filter (fun x => !(x.mThreadId == e.mThreadId))) :=
          List.Perm.append_left _ ih
      _ |>.Perm (e :: r) := List.filter_append_perm _ _

theorem drainAll_groups (q : List LogEntry) :
    ∃ ts : List Nat, ts.Nodup ∧
      (∀ t ∈ ts, ∃ x ∈ q, x.mThreadId = t) ∧
      (∀ x ∈ q, x.mThreadId ∈ ts) ∧
      drainAll q = (ts.map (fun t => filterT t q)).flatten := by
  induction q using drainAll.induct with
  | case1 => exact ⟨[], by simp, by simp, by simp, by simp [drainAll]⟩
  | case2 e r ih =>
    obtain ⟨ts, hnd, hinh, hcov, heq⟩ := ih
    refine ⟨e.mThreadId :: ts, ?_, ?_, ?_, ?_⟩
    · refine List.nodup_cons.mpr ⟨?_, hnd⟩
      intro hmem
      obtain ⟨x, hx, hxt⟩ := hinh _ hmem
      obtain ⟨-, hx2⟩ := List.mem_filter.mp hx
      rw [hxt] at hx2
      simp at hx2
    · intro t ht
      rcases List.mem_cons.mp ht with rfl | ht
      · exact ⟨e, by simp, rfl⟩
      · obtain ⟨x, hx, hxt⟩ := hinh _ ht
        exact ⟨x, List.mem_of_mem_filter hx, hxt⟩
    · intro x hx
      by_cases hxt : x.mThreadId = e.mThreadId
      · rw [hxt]; exact List.mem_cons_self _ _
      · refine List.mem_cons_of_mem _ (hcov x ?_)
        refine List.mem_filter.mpr ⟨hx, by simp [hxt]⟩
    · rw [drainAll, heq]
      simp only [List.map_cons, List.flatten_cons]
      refine congrArg (filterT e.mThreadId (e :: r) ++ ·) ?_
      refine congrArg List.flatten (List.map_congr_left ?_)
      intro t ht
      have htne : t ≠ e.mThreadId := by
        intro hx
        obtain ⟨x, hxm, hxt⟩ := hinh _ ht
        obtain ⟨-, hx2⟩ := List.mem_filter.mp hxm
        rw [hxt, hx] at hx2
        simp at hx2
      exact filterT_filter_ne _ _ _ htne
/-! ### The outer closing loop: characterisation -/

theorem closingLoopF_step_reset (n : Nat) (s : LogState)
    (hq : s.mLogQueue.isEmpty = false) (hc : s.mCurrentLog = none) :
    closingLoopF (n + 1) s =
      closingLoopF n (sweep { s with
        mCurrentLog := some 0
        mCurrentThreadId := s.mLogQueue.head?.map LogEntry.mThreadId }) := by
  simp only [closingLoopF, hq, hc, reduceIte, Bool.false_eq_true, if_false]

theorem closingLoopF_step_cursor (n : Nat) (s : LogState) (i : Nat)
    (hq : s.mLogQueue.isEmpty = false) (hc : s.mCurrentLog = some i) :
    closingLoopF (n + 1) s = closingLoopF n (sweep s) := by
  simp only [closingLoopF, hq, hc, reduceCtorEq, reduceIte,
    Bool.false_eq_true, if_false]

/-- One reset-plus-sweep pass of the closing loop, started at the queue
head: it executes and removes exactly the head thread's entries, in order. -/
theorem sweep_reset_spec (s : LogState) (t1 : Nat) :
    sweep { s with mCurrentLog := some 0, mCurrentThreadId := some t1 } =
      { s with
        mLogQueue := s.mLogQueue.filter (fun x => !(x.mThreadId == t1))
        mCurrentLog := none
        mCurrentThreadId := some t1
        mBuffer := s.mBuffer ++ joinTexts (filterT t1 s.mLogQueue)
        chunk := s.chunk ++ filterT t1 s.mLogQueue
        mFlushed := s.mFlushed ||
          (filterT t1 s.mLogQueue).any LogEntry.isFlush } := by
  rw [sweep_spec _ 0 rfl]
  have h1 : List.filter (ownP (some t1)) s.mLogQueue =
      filterT t1 s.mLogQueue :=
    List.filter_congr fun x _ => ownP_some t1 x
  have h2 : List.filter (fun x => !(ownP (some t1) x)) s.mLogQueue =
      List.filter (fun x => !(x.mThreadId == t1)) s.mLogQueue :=
    List.filter_congr fun x _ => by rw [ownP_some]
  simp only [List.take_zero, List.drop_zero, List.nil_append, h1, h2]

theorem closingLoopF_drainAll (n : Nat) (s : LogState)
    (hc : s.mCurrentLog = none) (hn : s.mLogQueue.length < n) :
    ∃ ow : Option Nat,
      closingLoopF n s =
        { s with
          mLogQueue := []
          mCurrentLog := none
          mCurrentThreadId := ow
          mBuffer := s.mBuffer ++ joinTexts (drainAll s.mLogQueue)
          chunk := s.chunk ++ drainAll s.mLogQueue
          mFlushed := s.mFlushed ||
            (drainAll s.mLogQueue).any LogEntry.isFlush } := by
  induction n generalizing s with
  | zero => omega
  | succ n ih =>
    by_cases hq : s.mLogQueue.isEmpty
    · have hqnil : s.mLogQueue = [] := List.isEmpty_iff.mp hq
      refine ⟨s.mCurrentThreadId, ?_⟩
      simp only [closingLoopF, hq, if_true]
      rcases s with ⟨q, c, t, cl, f, b, o, tm, lk, al, ch, flg⟩
      simp only at hqnil hc
      subst hqnil
      subst hc
      simp [drainAll, joinTexts_nil, String.append_empty]
    · have hq' : s.mLogQueue.isEmpty = false := by
        simpa using hq
      have hqne : s.mLogQueue ≠ [] := by
        intro hx
        rw [hx] at hq
        simp at hq
      obtain ⟨e, r, hqe⟩ := List.exists_cons_of_ne_nil hqne
      have hhead : s.mLogQueue.head?.map LogEntry.mThreadId =
          some e.mThreadId := by
        rw [hqe]
        rfl
      rw [closingLoopF_step_reset n s hq' hc, hhead,
        sweep_reset_spec s e.mThreadId]
      have hlK : (s.mLogQueue.filter
          (fun x => !(x.mThreadId == e.mThreadId))).length <
          s.mLogQueue.length := by
        refine List.length_filter_lt_length_iff_exists.mpr ⟨e, ?_, ?_⟩
        · rw [hqe]; exact List.mem_cons_self _ _
        · simp
      obtain ⟨ow, how⟩ := ih
        { s with
          mLogQueue :=
            s.mLogQueue.filter (fun x => !(x.mThreadId == e.mThreadId))
          mCurrentLog := none
          mCurrentThreadId := some e.mThreadId
          mBuffer := s.mBuffer ++ joinTexts (filterT e.mThreadId s.mLogQueue)
          chunk := s.chunk ++ filterT e.mThreadId s.mLogQueue
          mFlushed := s.mFlushed ||
            (filterT e.mThreadId s.mLogQueue).any LogEntry.isFlush }
        rfl
        (show (s.mLogQueue.filter
          (fun x => !(x.mThreadId == e.mThreadId))).length < n by omega)
      rw [how]
      refine ⟨ow, ?_⟩
      have hda : drainAll s.mLogQueue =
          filterT e.mThreadId s.mLogQueue ++
            drainAll (s.mLogQueue.filter
              (fun x => !(x.mThreadId == e.mThreadId))) := by
        conv_lhs => rw [hqe, drainAll]
        rw [← hqe]
      rw [hda]
      simp [joinTexts_append, List.append_assoc, String.append_assoc,
        Bool.or_assoc, List.any_append]

/-! ### The whole closing drain from a rest state -/

/-- The first closing pass, entered with the cursor parked at position `i`
of the current owner (no owner entries lie before it, by the invariant):
it executes and removes exactly the owner's entries, in order. -/
theorem sweep_cursor_good_spec (s : LogState) (i : Nat) (t0 : Nat)
    (hc : s.mCurrentLog = some i) (ht : s.mCurrentThreadId = some t0)
    (hfo : ∀ j, j < i → ∀ e2, s.mLogQueue[j]? = some e2 →
      e2.mThreadId ≠ t0) :
    sweep s =
      { s with
        mLogQueue := s.mLogQueue.filter (fun x => !(x.mThreadId == t0))
        mCurrentLog := none
        mBuffer := s.mBuffer ++ joinTexts (filterT t0 s.mLogQueue)
        chunk := s.chunk ++ filterT t0 s.mLogQueue
        mFlushed := s.mFlushed ||
          (filterT t0 s.mLogQueue).any LogEntry.isFlush } := by
  rw [sweep_spec s i hc, ht]
  have htk : ∀ x ∈ s.mLogQueue.take i, (x.mThreadId == t0) = false := by
    intro x hx
    obtain ⟨j, hj⟩ := List.mem_iff_getElem?.mp hx
    rw [List.getElem?_take] at hj
    by_cases hji : j < i
    · rw [if_pos hji] at hj
      simpa using hfo j hji x hj
    · rw [if_neg hji] at hj
      exact absurd hj (by simp)
  have h1 : (s.mLogQueue.drop i).filter (ownP (some t0)) =
      filterT t0 s.mLogQueue := by
    have := List.filter_congr
      (fun x _ => ownP_some t0 x) (l := s.mLogQueue.drop i)
    rw [this]
    conv_rhs => rw [← List.take_append_drop i s.mLogQueue]
    rw [filterT_append, show filterT t0 (s.mLogQueue.take i) = [] from
      List.filter_eq_nil_iff.mpr (by
        intro x hx
        rw [htk x hx]
        simp),
      List.nil_append]
    rfl
  have h2a : List.filter (fun x => !(ownP (some t0) x))
        (s.mLogQueue.drop i) =
      List.filter (fun x => !(x.mThreadId == t0)) (s.mLogQueue.drop i) :=
    List.filter_congr (fun x _ => by simp [ownP_some])
  have h2b : List.filter (fun x => !(x.mThreadId == t0))
        (s.mLogQueue.take i) = s.mLogQueue.take i :=
    List.filter_eq_self.mpr (fun x hx => by simp [htk x hx])
  have h2 : s.mLogQueue.take i ++
      (s.mLogQueue.drop i).filter (fun x => !(ownP (some t0) x)) =
      s.mLogQueue.filter (fun x => !(x.mThreadId == t0)) := by
    rw [h2a]
    conv_rhs => rw [← List.take_append_drop i s.mLogQueue,
      List.filter_append, h2b]
  rw [h1, h2]

/-- The list of entries executed by the closing path, in execution order,
as a function of the scheduler state at the moment `mClosing` is seen. -/
def closingExec (ow : Option Nat) (cur : Option Nat) (q : List LogEntry) :
    List LogEntry :=
  match cur, ow with
  | some _, some t0 =>
    filterT t0 q ++ drainAll (q.filter (fun x => !(x.mThreadId == t0)))
  | _, _ => drainAll q

theorem closingExec_filterT (ow cur : Option Nat) (q : List LogEntry)
    (t : Nat) : filterT t (closingExec ow cur q) = filterT t q := by
  rcases cur with _ | i
  · simp only [closingExec]
    exact drainAll_filterT q t
  · rcases ow with _ | t0
    · simp only [closingExec]
      exact drainAll_filterT q t
    · simp only [closingExec]
      rw [filterT_append, drainAll_filterT]
      by_cases h : t = t0
      · subst h
        rw [filterT_idem, filterT_self_filter, List.append_nil]
      · rw [filterT_other _ _ _ h, filterT_filter_ne _ _ _ h,
          List.nil_append]

theorem closingExec_perm (ow cur : Option Nat) (q : List LogEntry) :
    (closingExec ow cur q).Perm q := by
  rcases cur with _ | i
  · exact drainAll_perm q
  · rcases ow with _ | t0
    · exact drainAll_perm q
    · simp only [closingExec]
      calc filterT t0 q ++
            drainAll (q.filter (fun x => !(x.mThreadId == t0)))
          |>.Perm (filterT t0 q ++
            q.filter (fun x => !(x.mThreadId == t0))) :=
            List.Perm.append_left _ (drainAll_perm _)
        _ |>.Perm q := List.filter_append_perm _ _

theorem closingExec_groups (ow cur : Option Nat) (q : List LogEntry) :
    ∃ ts : List Nat, ts.Nodup ∧
      (∀ x ∈ q, x.mThreadId ∈ ts) ∧
      closingExec ow cur q = (ts.map (fun t => filterT t q)).flatten := by
  rcases cur with _ | i
  · obtain ⟨ts, hnd, -, hcov, heq⟩ := drainAll_groups q
    exact ⟨ts, hnd, hcov, heq⟩
  · rcases ow with _ | t0
    · obtain ⟨ts, hnd, -, hcov, heq⟩ := drainAll_groups q
      exact ⟨ts, hnd, hcov, heq⟩
    · obtain ⟨ts, hnd, hinh, hcov, heq⟩ :=
        drainAll_groups (q.filter (fun x => !(x.mThreadId == t0)))
      have hne : ∀ t ∈ ts, t ≠ t0 := by
        intro t ht hx
        obtain ⟨x, hxm, hxt⟩ := hinh _ ht
        obtain ⟨-, hx2⟩ := List.mem_filter.mp hxm
        rw [hxt, hx] at hx2
        simp at hx2
      refine ⟨t0 :: ts, ?_, ?_, ?_⟩
      · exact List.nodup_cons.mpr ⟨fun hmem => hne _ hmem rfl, hnd⟩
      · intro x hx
        by_cases hxt : x.mThreadId = t0
        · rw [hxt]; exact List.mem_cons_self _ _
        · refine List.mem_cons_of_mem _ (hcov x ?_)
          exact List.mem_filter.mpr ⟨hx, by simp [hxt]⟩
      · simp only [closingExec, heq, List.map_cons, List.flatten_cons]
        refine congrArg (filterT t0 q ++ ·) ?_
        refine congrArg List.flatten (List.map_congr_left ?_)
        intro t ht
        exact filterT_filter_ne _ _ _ (hne _ ht)

theorem closingExec_cursor_none (ow : Option Nat) (q : List LogEntry) :
    closingExec ow none q = drainAll q := by
  rcases ow with _ | t0 <;> rfl

theorem closingExec_some_some (t0 i : Nat) (q : List LogEntry) :
    closingExec (some t0) (some i) q =
      filterT t0 q ++ drainAll (q.filter (fun x => !(x.mThreadId == t0))) :=
  rfl

/-- The closing path of one `serialize` iteration, from a state satisfying
the invariant: the whole queue is executed in the `closingExec` order and
removed, a final flush is written to the sink, and the worker terminates. -/
theorem serializeStep_closing (s : LogState) (hg : Good s)
    (hcl : s.mClosing = true) :
    ∃ ow : Option Nat,
      serializeStep s =
        { s with
          mLogQueue := []
          mCurrentLog := none
          mCurrentThreadId := ow
          mFlushed := false
          mBuffer := ""
          chunk := []
          sinkOut := s.sinkOut ++ [s.mBuffer ++ joinTexts
            (closingExec s.mCurrentThreadId s.mCurrentLog s.mLogQueue)]
          flushLog := s.flushLog ++ [FlushEvent.mk ow
            (s.chunk ++ closingExec s.mCurrentThreadId s.mCurrentLog
              s.mLogQueue) true true]
          terminated := true
          lockHeld := false } := by
  obtain ⟨q, c, t, cl, f, b, o, tm, lk, al, ch, flg⟩ := s
  simp only at hcl
  subst hcl
  rcases c with _ | i
  · -- cursor at end: every pass starts at the queue head
    obtain ⟨ow, how⟩ := closingLoopF_drainAll (q.length + 1)
      ⟨q, none, t, true, f, b, o, tm, true, al, ch, flg⟩ rfl
      (show q.length < q.length + 1 by omega)
    refine ⟨ow, ?_⟩
    simp only [serializeStep, reduceIte]
    rw [show closingRun ⟨q, none, t, true, f, b, o, tm, true, al, ch, flg⟩ =
      closingLoopF (q.length + 1)
        ⟨q, none, t, true, f, b, o, tm, true, al, ch, flg⟩ from rfl]
    rw [how, closingExec_cursor_none]
    simp only [flush]
  · -- cursor parked at position `i` of the owner thread
    obtain ⟨e, he, ht⟩ := hg.cursorValid i rfl
    simp only at he ht
    subst ht
    have hfo2 : ∀ j, j < i → ∀ e2, q[j]? = some e2 →
        e2.mThreadId ≠ e.mThreadId := by
      intro j hj e2 he2 hx
      refine hg.firstOwner i rfl j hj e2 ?_ ?_
      · simpa using he2
      · simp [hx]
    have hi := getElem?_lt_length he
    have hq' : q.isEmpty = false := by
      rcases hqq : q with _ | ⟨a, r⟩
      · rw [hqq] at hi; simp at hi
      · rfl
    have hrun : closingRun
        ⟨q, some i, some e.mThreadId, true, f, b, o, tm, true, al, ch, flg⟩ =
        closingLoopF q.length (sweep
          ⟨q, some i, some e.mThreadId, true, f, b, o, tm, true, al, ch,
            flg⟩) :=
      closingLoopF_step_cursor _ _ i hq' rfl
    have hsw := sweep_cursor_good_spec
      ⟨q, some i, some e.mThreadId, true, f, b, o, tm, true, al, ch, flg⟩ i
      e.mThreadId rfl rfl hfo2
    have hlK : (q.filter
        (fun x => !(x.mThreadId == e.mThreadId))).length < q.length := by
      refine List.length_filter_lt_length_iff_exists.mpr
        ⟨e, mem_of_getElem?_eq_some he, ?_⟩
      simp
    have hsw2 : sweep
        ⟨q, some i, some e.mThreadId, true, f, b, o, tm, true, al, ch, flg⟩ =
        ⟨q.filter (fun x => !(x.mThreadId == e.mThreadId)), none,
          some e.mThreadId, true,
          f || (filterT e.mThreadId q).any LogEntry.isFlush,
          b ++ joinTexts (filterT e.mThreadId q), o, tm, true, al,
          ch ++ filterT e.mThreadId q, flg⟩ := hsw
    obtain ⟨ow, how⟩ := closingLoopF_drainAll q.length
      ⟨q.filter (fun x => !(x.mThreadId == e.mThreadId)), none,
        some e.mThreadId, true,
        f || (filterT e.mThreadId q).any LogEntry.isFlush,
        b ++ joinTexts (filterT e.mThreadId q), o, tm, true, al,
        ch ++ filterT e.mThreadId q, flg⟩
      rfl hlK
    refine ⟨ow, ?_⟩
    simp only [serializeStep, reduceIte]
    rw [hrun, hsw2]
    rw [how, closingExec_some_some]
    simp only [flush]
    simp [joinTexts_append, List.append_assoc, String.append_assoc]

theorem good_serializeStep_closing (s : LogState) (hg : Good s)
    (hcl : s.mClosing = true) : Good (serializeStep s) := by
  obtain ⟨ow, how⟩ := serializeStep_closing s hg hcl
  rw [how]
  refine ⟨?_, ?_, rfl, ?_, rfl, ?_, ?_, ?_, ?_, ?_, ?_⟩
  · intro i hi
    simp at hi
  · exact fun _ => ⟨rfl, rfl, rfl⟩
  · intro x hx
    simp at hx
  · intro tt
    simp only [histFlat, List.map_append, List.map_cons, List.map_nil,
      List.flatten_append, List.flatten_cons, List.flatten_nil,
      List.append_nil, filterT_nil]
    rw [filterT_append, filterT_append, closingExec_filterT,
      ← List.append_assoc]
    exact hg.account tt
  · intro i hi
    simp at hi
  · intro _ x hx
    simp at hx
  · rw [List.map_append, ← hg.outputsEq, hg.bufferEq]
    simp [joinTexts_append]
  · refine flushLogGood_snoc _ _ _ hg.flushLogGood ?_
    intro h
    simp at h
  · intro g hgm
    rcases List.mem_append.mp hgm with hgm | hgm
    · exact hg.locksTrue g hgm
    · obtain rfl : g = FlushEvent.mk ow
          (s.chunk ++ closingExec s.mCurrentThreadId s.mCurrentLog
            s.mLogQueue) true true := by simpa using hgm
      rfl

/-! ### Every reachable state satisfies the invariant -/

theorem good_step {s s2 : LogState} (hg : Good s) (hst : Step s s2) :
    Good s2 := by
  cases hst with
  | write tid txt fl s => exact good_writeS s tid txt fl hg
  | close s => exact good_requestClose s hg
  | drain s hen hterm =>
    rcases hcl : s.mClosing with _ | _
    · exact good_serializeStep_normal s hg hcl
    · exact good_serializeStep_closing s hg hcl

theorem reachable_good {s : LogState} (h : Reachable s) : Good s := by
  induction h with
  | init => exact good_init
  | step h1 h2 ih => exact good_step ih h2

/-! ### Executions without flush tokens never emit -/

theorem drainBody_noflush_inv (s : LogState) (hfl : s.mFlushed = false)
    (hq : ∀ e ∈ s.mLogQueue, e.isFlush = false) :
    (drainBody s).sinkOut = s.sinkOut ∧ (drainBody s).mFlushed = false ∧
      (∀ e ∈ (drainBody s).mLogQueue, e.isFlush = false) ∧
      (drainBody s).flushLog = s.flushLog ∧
      (drainBody s).mClosing = s.mClosing := by
  rcases hc : s.mCurrentLog with _ | i
  · rw [drainBody_of_cursor_none s hc]
    exact ⟨rfl, hfl, hq, rfl, rfl⟩
  · rcases he : s.mLogQueue[i]? with _ | e
    · have hid : drainBody s = s := by
        simp only [drainBody, hc, he]
      rw [hid]
      exact ⟨rfl, hfl, hq, rfl, rfl⟩
    · have hef : e.isFlush = false :=
        hq e (mem_of_getElem?_eq_some he)
      have hnf : (s.mFlushed || e.isFlush) = false := by
        rw [hfl, hef]
        rfl
      rw [drainBody_noflush s i e hc he hnf]
      refine ⟨rfl, rfl, ?_, rfl, rfl⟩
      intro x hx
      exact hq x (List.eraseIdx_subset _ _ hx)

theorem drainWhileF_noflush_inv (n : Nat) (s : LogState)
    (hfl : s.mFlushed = false)
    (hq : ∀ e ∈ s.mLogQueue, e.isFlush = false) :
    (drainWhileF n s).sinkOut = s.sinkOut ∧
      (drainWhileF n s).mFlushed = false ∧
      (∀ e ∈ (drainWhileF n s).mLogQueue, e.isFlush = false) ∧
      (drainWhileF n s).flushLog = s.flushLog ∧
      (drainWhileF n s).mClosing = s.mClosing := by
  induction n generalizing s with
  | zero => exact ⟨rfl, hfl, hq, rfl, rfl⟩
  | succ n ih =>
    rcases hcond : drainCond s with _ | _
    · rw [drainWhileF_cond_false (n + 1) s hcond]
      exact ⟨rfl, hfl, hq, rfl, rfl⟩
    · simp only [drainWhileF, hcond, if_true]
      obtain ⟨h1, h2, h3, h4, h5⟩ := drainBody_noflush_inv s hfl hq
      obtain ⟨g1, g2, g3, g4, g5⟩ := ih (drainBody s) h2 h3
      exact ⟨g1.trans h1, g2, g3, g4.trans h4, g5.trans h5⟩

theorem noFlushReach_inv (s : LogState) (h : NoFlushReach s) :
    s.sinkOut = [] ∧ s.flushLog = [] ∧ s.mClosing = false ∧
      s.mFlushed = false ∧ (∀ e ∈ s.mLogQueue, e.isFlush = false) := by
  induction h with
  | init => exact ⟨rfl, rfl, rfl, rfl, by simp [initState]⟩
  | write tid txt hr ih =>
    obtain ⟨h1, h2, h3, h4, h5⟩ := ih
    rename_i s0
    have hfields : ∀ s1 : LogState,
        s1.mLogQueue = s0.mLogQueue ++ [LogEntry.mk tid txt false] →
        s1.sinkOut = s0.sinkOut → s1.flushLog = s0.flushLog →
        s1.mClosing = s0.mClosing → s1.mFlushed = s0.mFlushed →
        s1.sinkOut = [] ∧ s1.flushLog = [] ∧ s1.mClosing = false ∧
          s1.mFlushed = false ∧ ∀ e ∈ s1.mLogQueue, e.isFlush = false := by
      intro s1 hq hso hflg hcl hfd
      refine ⟨hso.trans h1, hflg.trans h2, hcl.trans h3, hfd.trans h4, ?_⟩
      intro x hx
      rw [hq] at hx
      rcases List.mem_append.mp hx with hx | hx
      · exact h5 x hx
      · obtain rfl : x = LogEntry.mk tid txt false := by simpa using hx
        rfl
    by_cases hown : s0.mCurrentThreadId = none
    · rw [writeS, write_owner_none s0 tid txt false hown]
      exact hfields _ rfl rfl rfl rfl rfl
    · by_cases hown2 : s0.mCurrentThreadId = some tid
      · rw [writeS, write_owner_self s0 tid txt false hown2]
        exact hfields _ rfl rfl rfl rfl rfl
      · rw [writeS, write_owner_other s0 tid txt false hown hown2]
        exact hfields _ rfl rfl rfl rfl rfl
  | drain hr hen hterm ih =>
    obtain ⟨h1, h2, h3, h4, h5⟩ := ih
    rename_i s0
    have hres : serializeStep s0 =
        { normalDrain { s0 with lockHeld := true } with
          lockHeld := false } := by
      unfold serializeStep
      rw [if_neg (by simpa using h3)]
    rw [hres]
    obtain ⟨g1, g2, g3, g4, g5⟩ :=
      drainBody_noflush_inv { s0 with lockHeld := true } h4 h5
    obtain ⟨k1, k2, k3, k4, k5⟩ := drainWhileF_noflush_inv
      (drainBody { s0 with lockHeld := true }).mLogQueue.length
      (drainBody { s0 with lockHeld := true }) g2 g3
    refine ⟨?_, ?_, ?_, k2, k3⟩
    · exact (k1.trans g1).trans h1
    · exact (k4.trans g4).trans h2
    · exact (k5.trans g5).trans h3

/-! ### The claims -/

/-- Claim C3: whenever the just-executed entry's closure set the flushed
flag, the drain worker emits the buffered text to the sink and clears the
buffer, removes the just-executed entry from the queue, and resets the
cursor to the queue's new head; if the queue is then empty it sets the
current owner to none and returns to waiting (the do-while condition is
false), otherwise it sets the current owner to the thread id of the new
head entry. -/
theorem claim3_drain_flush_case (s : LogState) (i : Nat) (e : LogEntry)
    (hc : s.mCurrentLog = some i) (he : s.mLogQueue[i]? = some e)
    (hf : (s.mFlushed || e.isFlush) = true) :
    (drainBody s).sinkOut = s.sinkOut ++ [s.mBuffer ++ e.text] ∧
    (drainBody s).mBuffer = "" ∧
    (drainBody s).mLogQueue = s.mLogQueue.eraseIdx i ∧
    (s.mLogQueue.eraseIdx i = [] →
      (drainBody s).mCurrentThreadId = none ∧
      (drainBody s).mCurrentLog = none ∧
      drainCond (drainBody s) = false) ∧
    (∀ e0, (s.mLogQueue.eraseIdx i).head? = some e0 →
      (drainBody s).mCurrentLog = some 0 ∧
      (drainBody s).mCurrentThreadId = some e0.mThreadId) := by
  rw [drainBody_flush s i e hc he hf]
  rcases hh : (s.mLogQueue.eraseIdx i).head? with _ | e0
  · have hqe : s.mLogQueue.eraseIdx i = [] := by
      rwa [List.head?_eq_none_iff] at hh
    refine ⟨rfl, rfl, rfl,
      fun _ => ⟨rfl, rfl, drainCond_false_of_nil _ hqe⟩, ?_⟩
    intro e0 h0
    simp at h0
  · refine ⟨rfl, rfl, rfl, ?_, ?_⟩
    · intro hqe
      rw [hqe] at hh
      simp at hh
    · intro e0' h0
      obtain rfl : e0 = e0' := by simpa using h0
      exact ⟨rfl, rfl⟩

/-- Concrete instance of claim C3: one thread appends a single flushing
entry; draining it emits the buffer and clears the scheduler state. -/
theorem claim3_drain_flush_case_witness :
    (drainBody (writeS 1 "x" true initState)).sinkOut =
        (writeS 1 "x" true initState).sinkOut ++
          [(writeS 1 "x" true initState).mBuffer ++
            (LogEntry.mk 1 "x" true).text] ∧
    (drainBody (writeS 1 "x" true initState)).mBuffer = "" ∧
    (drainBody (writeS 1 "x" true initState)).mLogQueue =
      (writeS 1 "x" true initState).mLogQueue.eraseIdx 0 ∧
    ((writeS 1 "x" true initState).mLogQueue.eraseIdx 0 = [] →
      (drainBody (writeS 1 "x" true initState)).mCurrentThreadId = none ∧
      (drainBody (writeS 1 "x" true initState)).mCurrentLog = none ∧
      drainCond (drainBody (writeS 1 "x" true initState)) = false) ∧
    (∀ e0, ((writeS 1 "x" true initState).mLogQueue.eraseIdx 0).head? =
        some e0 →
      (drainBody (writeS 1 "x" true initState)).mCurrentLog = some 0 ∧
      (drainBody (writeS 1 "x" true initState)).mCurrentThreadId =
        some e0.mThreadId) :=
  claim3_drain_flush_case (writeS 1 "x" true initState) 0
    (LogEntry.mk 1 "x" true) rfl rfl rfl

/-- Claim C4: whenever the just-executed entry's closure did not set the
flushed flag, the drain worker removes that entry (leaving every other
queued entry unchanged and emitting nothing) and advances the cursor to the
next queued entry of the current owner; if no such entry exists the cursor
becomes "at end" and the worker returns to waiting with the owner
unchanged.  The hypothesis `hfo` (no owner entry before the cursor) is the
reachable-state invariant established by `reachable_good`. -/
theorem claim4_drain_noflush_case (s : LogState) (i : Nat) (e : LogEntry)
    (hc : s.mCurrentLog = some i) (he : s.mLogQueue[i]? = some e)
    (hnf : (s.mFlushed || e.isFlush) = false)
    (hfo : ∀ j, j < i → ∀ e2, s.mLogQueue[j]? = some e2 →
      s.mCurrentThreadId ≠ some e2.mThreadId) :
    (drainBody s).mLogQueue = s.mLogQueue.eraseIdx i ∧
    (drainBody s).mCurrentThreadId = s.mCurrentThreadId ∧
    (drainBody s).sinkOut = s.sinkOut ∧
    ((∃ j e2, (drainBody s).mCurrentLog = some j ∧
        (s.mLogQueue.eraseIdx i)[j]? = some e2 ∧
        s.mCurrentThreadId = some e2.mThreadId ∧
        ∀ k e3, k < j → (s.mLogQueue.eraseIdx i)[k]? = some e3 →
          s.mCurrentThreadId ≠ some e3.mThreadId) ∨
      ((drainBody s).mCurrentLog = none ∧
        (∀ e2 ∈ s.mLogQueue.eraseIdx i,
          s.mCurrentThreadId ≠ some e2.mThreadId) ∧
        drainCond (drainBody s) = false)) := by
  rw [drainBody_noflush s i e hc he hnf]
  refine ⟨rfl, rfl, rfl, ?_⟩
  rcases hfind : findFrom s.mCurrentThreadId (s.mLogQueue.eraseIdx i) i
    with _ | j
  · right
    refine ⟨rfl, ?_, rfl⟩
    intro e2 he2
    obtain ⟨k, hk⟩ := List.mem_iff_getElem?.mp he2
    by_cases hki : k < i
    · rw [List.getElem?_eraseIdx, if_pos hki] at hk
      exact hfo k hki e2 hk
    · exact findFrom_none _ _ _ hfind k (by omega) e2 hk
  · left
    obtain ⟨hij, ⟨e2, he2, ht2⟩, hmin⟩ := findFrom_some _ _ _ _ hfind
    refine ⟨j, e2, rfl, he2, ht2, ?_⟩
    intro k e3 hk hke3
    by_cases hki : k < i
    · rw [List.getElem?_eraseIdx, if_pos hki] at hke3
      exact hfo k hki e3 hke3
    · exact hmin k (by omega) hk e3 hke3

/-- Claim C1: every flush event of the normal (non-closing) path emits, on
behalf of its owner thread `t`, exactly the concatenation of the rendered
texts of a contiguous block of `t`'s appended entries, in `t`'s append
order, ending in the flush token, with no entry of any other thread in the
segment.  (The prefix property says the entries emitted so far for `t`,
this event's included, are an initial segment of `t`'s append history.) -/
theorem claim1_flush_segment_single_thread (s : LogState)
    (hr : Reachable s) (k : Nat) (f : FlushEvent)
    (hk : s.flushLog[k]? = some f) (hnc : f.duringClose = false) :
    ∃ t, f.owner = some t ∧ f.chunk ≠ [] ∧
      (∀ e ∈ f.chunk, e.mThreadId = t) ∧
      (∃ e, f.chunk.getLast? = some e ∧ e.isFlush = true) ∧
      s.sinkOut[k]? = some (joinTexts f.chunk) ∧
      ∃ u, filterT t s.appendLog =
        filterT t (((s.flushLog.take (k + 1)).map
          FlushEvent.chunk).flatten) ++ u := by
  have hg := reachable_good hr
  obtain ⟨t, h1, h2, h3, h4, u, h5⟩ := hg.flushLogGood k f hk hnc
  refine ⟨t, h1, h2, h3, h4, ?_, u, h5⟩
  rw [hg.outputsEq, List.getElem?_map, hk]
  rfl

/-- Concrete instance of claim C1: thread 1 appends a value and then a
flush token; the drained flush event carries exactly thread 1's two entries
and the sink receives their concatenated text. -/
theorem claim1_flush_segment_single_thread_witness :
    ∃ t, (FlushEvent.mk (some 1) [LogEntry.mk 1 "a" false,
        LogEntry.mk 1 "eol" true] false true).owner = some t ∧
      (FlushEvent.mk (some 1) [LogEntry.mk 1 "a" false,
        LogEntry.mk 1 "eol" true] false true).chunk ≠ [] ∧
      (∀ e ∈ (FlushEvent.mk (some 1) [LogEntry.mk 1 "a" false,
        LogEntry.mk 1 "eol" true] false true).chunk, e.mThreadId = t) ∧
      (∃ e, (FlushEvent.mk (some 1) [LogEntry.mk 1 "a" false,
          LogEntry.mk 1 "eol" true] false true).chunk.getLast? = some e ∧
        e.isFlush = true) ∧
      (serializeStep (writeS 1 "eol" true (writeS 1 "a" false
        initState))).sinkOut[0]? = some (joinTexts
          (FlushEvent.mk (some 1) [LogEntry.mk 1 "a" false,
            LogEntry.mk 1 "eol" true] false true).chunk) ∧
      ∃ u, filterT t (serializeStep (writeS 1 "eol" true (writeS 1 "a"
          false initState))).appendLog =
        filterT t ((((serializeStep (writeS 1 "eol" true (writeS 1 "a"
          false initState))).flushLog.take 1).map
            FlushEvent.chunk).flatten) ++ u :=
  claim1_flush_segment_single_thread
    (serializeStep (writeS 1 "eol" true (writeS 1 "a" false initState)))
    (Reachable.step (Reachable.step (Reachable.step Reachable.init
      (Step.write 1 "a" false initState))
      (Step.write 1 "eol" true (writeS 1 "a" false initState)))
      (Step.drain (writeS 1 "eol" true (writeS 1 "a" false initState))
        rfl rfl))
    0 (FlushEvent.mk (some 1) [LogEntry.mk 1 "a" false,
      LogEntry.mk 1 "eol" true] false true) rfl rfl

/-- Claim C2: if shutdown is requested in any reachable state, the very
next drain-worker iteration (the one the destructor's `join` waits for)
executes every queued entry, removes it, and emits one final flush to the
sink before terminating; the executed order `ex` contains each thread's
entries in arrival order, grouped by producer thread (a concatenation of
per-thread blocks), and no entry is discarded (`ex` is a permutation of the
pending queue). -/
theorem claim2_shutdown_drains_all (s : LogState) (hr : Reachable s) :
    ∃ ow ex,
      serializeStep (requestClose s) =
        { s with
          mClosing := true
          mLogQueue := []
          mCurrentLog := none
          mCurrentThreadId := ow
          mFlushed := false
          mBuffer := ""
          chunk := []
          sinkOut := s.sinkOut ++ [s.mBuffer ++ joinTexts ex]
          flushLog := s.flushLog ++
            [FlushEvent.mk ow (s.chunk ++ ex) true true]
          terminated := true
          lockHeld := false } ∧
      (∀ t, filterT t ex = filterT t s.mLogQueue) ∧
      ex.Perm s.mLogQueue ∧
      ∃ ts : List Nat, ts.Nodup ∧
        (∀ e ∈ s.mLogQueue, e.mThreadId ∈ ts) ∧
        ex = (ts.map (fun t => filterT t s.mLogQueue)).flatten := by
  have hg2 := good_requestClose s (reachable_good hr)
  obtain ⟨ow, how⟩ := serializeStep_closing (requestClose s) hg2 rfl
  refine ⟨ow, closingExec s.mCurrentThreadId s.mCurrentLog s.mLogQueue,
    ?_, ?_, ?_, ?_⟩
  · exact how
  · exact fun t => closingExec_filterT _ _ _ t
  · exact closingExec_perm _ _ _
  · exact closingExec_groups _ _ _

/-- Concrete instance of claim C2: threads 1 and 2 each have one pending
un-flushed entry when shutdown is requested; both are drained and one
final flush is emitted. -/
theorem claim2_shutdown_drains_all_witness :
    ∃ ow ex,
      serializeStep (requestClose (writeS 2 "b" false (writeS 1 "a" false
        initState))) =
        { writeS 2 "b" false (writeS 1 "a" false initState) with
          mClosing := true
          mLogQueue := []
          mCurrentLog := none
          mCurrentThreadId := ow
          mFlushed := false
          mBuffer := ""
          chunk := []
          sinkOut := (writeS 2 "b" false (writeS 1 "a" false
              initState)).sinkOut ++
            [(writeS 2 "b" false (writeS 1 "a" false
              initState)).mBuffer ++ joinTexts ex]
          flushLog := (writeS 2 "b" false (writeS 1 "a" false
              initState)).flushLog ++
            [FlushEvent.mk ow ((writeS 2 "b" false (writeS 1 "a" false
              initState)).chunk ++ ex) true true]
          terminated := true
          lockHeld := false } ∧
      (∀ t, filterT t ex = filterT t (writeS 2 "b" false (writeS 1 "a"
        false initState)).mLogQueue) ∧
      ex.Perm (writeS 2 "b" false (writeS 1 "a" false
        initState)).mLogQueue ∧
      ∃ ts : List Nat, ts.Nodup ∧
        (∀ e ∈ (writeS 2 "b" false (writeS 1 "a" false
          initState)).mLogQueue, e.mThreadId ∈ ts) ∧
        ex = (ts.map (fun t => filterT t (writeS 2 "b" false (writeS 1 "a"
          false initState)).mLogQueue)).flatten :=
  claim2_shutdown_drains_all
    (writeS 2 "b" false (writeS 1 "a" false initState))
    (Reachable.step (Reachable.step Reachable.init
      (Step.write 1 "a" false initState))
      (Step.write 2 "b" false (writeS 1 "a" false initState)))

/-- Claim C6: along any execution in which no appended value carries a
flush token and shutdown is never requested, the sink receives no output
at all, however many entries are appended and drained. -/
theorem claim6_no_flush_no_output (s : LogState) (h : NoFlushReach s) :
    s.sinkOut = [] ∧ s.flushLog = [] := by
  obtain ⟨h1, h2, -, -, -⟩ := noFlushReach_inv s h
  exact ⟨h1, h2⟩

/-- Concrete instance of claim C6: two threads append without flushing and
the worker drains; nothing reaches the sink. -/
theorem claim6_no_flush_no_output_witness :
    (serializeStep (writeS 2 "b" false (writeS 1 "a" false
      initState))).sinkOut = [] ∧
    (serializeStep (writeS 2 "b" false (writeS 1 "a" false
      initState))).flushLog = [] :=
  claim6_no_flush_no_output
    (serializeStep (writeS 2 "b" false (writeS 1 "a" false initState)))
    (NoFlushReach.drain
      (NoFlushReach.write 2 "b" (NoFlushReach.write 1 "a"
        NoFlushReach.init)) rfl rfl)

/-- Concrete instance of claim C4: the owner's non-flushing entry is
executed and erased; the interleaved entry of the other thread stays
queued, the cursor goes to end and the owner keeps the floor. -/
theorem claim4_drain_noflush_case_witness :
    (drainBody (writeS 2 "y" false (writeS 1 "x" false
        initState))).mLogQueue =
      (writeS 2 "y" false (writeS 1 "x" false
        initState)).mLogQueue.eraseIdx 0 ∧
    (drainBody (writeS 2 "y" false (writeS 1 "x" false
        initState))).mCurrentThreadId =
      (writeS 2 "y" false (writeS 1 "x" false
        initState)).mCurrentThreadId ∧
    (drainBody (writeS 2 "y" false (writeS 1 "x" false
        initState))).sinkOut =
      (writeS 2 "y" false (writeS 1 "x" false initState)).sinkOut ∧
    ((∃ j e2, (drainBody (writeS 2 "y" false (writeS 1 "x" false
          initState))).mCurrentLog = some j ∧
        ((writeS 2 "y" false (writeS 1 "x" false
          initState)).mLogQueue.eraseIdx 0)[j]? = some e2 ∧
        (writeS 2 "y" false (writeS 1 "x" false
          initState)).mCurrentThreadId = some e2.mThreadId ∧
        ∀ k e3, k < j → ((writeS 2 "y" false (writeS 1 "x" false
          initState)).mLogQueue.eraseIdx 0)[k]? = some e3 →
          (writeS 2 "y" false (writeS 1 "x" false
            initState)).mCurrentThreadId ≠ some e3.mThreadId) ∨
      ((drainBody (writeS 2 "y" false (writeS 1 "x" false
          initState))).mCurrentLog = none ∧
        (∀ e2 ∈ (writeS 2 "y" false (writeS 1 "x" false
            initState)).mLogQueue.eraseIdx 0,
          (writeS 2 "y" false (writeS 1 "x" false
            initState)).mCurrentThreadId ≠ some e2.mThreadId) ∧
        drainCond (drainBody (writeS 2 "y" false (writeS 1 "x" false
          initState))) = false)) :=
  claim4_drain_noflush_case (writeS 2 "y" false (writeS 1 "x" false
    initState)) 0 (LogEntry.mk 1 "x" false) rfl rfl rfl
    (fun j hj _ _ => absurd hj (Nat.not_lt_zero j))

/-- Claim C5, as stated, is false on the code: `Log::write` notifies
whenever the calling thread already owns the floor, even when the cursor
already points at pending work; the `notify_one` at line 211 is outside the
`if (mCurrentLog == end)` at line 208.  Here thread 1 owns the floor with
its cursor parked on pending work at position 0, appends again, and the
notification is nevertheless sent. -/
theorem claim5_counterexample :
    writeN 1 "b" false (writeS 1 "a" false initState) = true ∧
    (writeS 1 "a" false initState).mCurrentThreadId = some 1 ∧
    (writeS 1 "a" false initState).mCurrentLog = some 0 ∧
    ¬((writeS 1 "a" false initState).mCurrentThreadId = none ∨
      ((writeS 1 "a" false initState).mCurrentThreadId = some 1 ∧
        (writeS 1 "a" false initState).mCurrentLog = none)) := by
  refine ⟨rfl, rfl, rfl, ?_⟩
  decide

/-- Claim C5, amended: `Log::write` signals the drain worker exactly when
the floor is unowned or already owned by the calling thread (regardless of
the cursor position); only an append while another thread owns the floor
enqueues without signalling. -/
theorem claim5_amended (s : LogState) (tid : Nat) (txt : String)
    (fl : Bool) :
    writeN tid txt fl s = true ↔
      (s.mCurrentThreadId = none ∨ s.mCurrentThreadId = some tid) := by
  by_cases h1 : s.mCurrentThreadId = none
  · simp only [writeN, write_owner_none s tid txt fl h1]
    simp [h1]
  · by_cases h2 : s.mCurrentThreadId = some tid
    · simp only [writeN, write_owner_self s tid txt fl h2]
      simp [h2]
    · simp only [writeN, write_owner_other s tid txt fl h1 h2]
      simp [h1, h2]

/-- Claim C7: in every reachable mutex-free state, the cursor is either at
end or a valid position inside the queue whose entry belongs to the current
owner.  (`Reachable` closes the state space under every append and every
drain-worker iteration, so this is exactly preservation by those
operations.) -/
theorem claim7_cursor_invariant (s : LogState) (hr : Reachable s) :
    s.mCurrentLog = none ∨
      ∃ i e, s.mCurrentLog = some i ∧ s.mLogQueue[i]? = some e ∧
        s.mCurrentThreadId = some e.mThreadId := by
  have hg := reachable_good hr
  rcases hc : s.mCurrentLog with _ | i
  · exact Or.inl rfl
  · obtain ⟨e, he, ht⟩ := hg.cursorValid i hc
    exact Or.inr ⟨i, e, rfl, he, ht⟩

/-- Concrete instance of claim C7, after a single append. -/
theorem claim7_cursor_invariant_witness :
    (writeS 1 "a" false initState).mCurrentLog = none ∨
      ∃ i e, (writeS 1 "a" false initState).mCurrentLog = some i ∧
        (writeS 1 "a" false initState).mLogQueue[i]? = some e ∧
        (writeS 1 "a" false initState).mCurrentThreadId =
          some e.mThreadId :=
  claim7_cursor_invariant (writeS 1 "a" false initState)
    (Reachable.step Reachable.init (Step.write 1 "a" false initState))

/-- Claim C8: an append that finds the floor unowned claims it for the
calling thread, parks the cursor on the entry it just appended (which, the
queue being empty in every such reachable state, is position 0, the last
position), and signals the drain worker. -/
theorem claim8_write_claims_floor (s : LogState) (hr : Reachable s)
    (tid : Nat) (txt : String) (fl : Bool)
    (h : s.mCurrentThreadId = none) :
    writeN tid txt fl s = true ∧
    (writeS tid txt fl s).mCurrentThreadId = some tid ∧
    ∃ j, (writeS tid txt fl s).mCurrentLog = some j ∧
      (writeS tid txt fl s).mLogQueue[j]? =
        some (LogEntry.mk tid txt fl) ∧
      j + 1 = (writeS tid txt fl s).mLogQueue.length := by
  have hg := reachable_good hr
  obtain ⟨hq, hcur, hch⟩ := hg.ownerNone h
  refine ⟨?_, ?_, 0, ?_, ?_, ?_⟩
  · simp only [writeN, write_owner_none s tid txt fl h]
  · simp only [writeS, write_owner_none s tid txt fl h]
    rw [hq]
    rfl
  · simp only [writeS, write_owner_none s tid txt fl h]
  · simp only [writeS, write_owner_none s tid txt fl h]
    rw [hq]
    rfl
  · simp only [writeS, write_owner_none s tid txt fl h]
    rw [hq]
    rfl

/-- Concrete instance of claim C8, on the freshly constructed logger. -/
theorem claim8_write_claims_floor_witness :
    writeN 7 "hello" false initState = true ∧
    (writeS 7 "hello" false initState).mCurrentThreadId = some 7 ∧
    ∃ j, (writeS 7 "hello" false initState).mCurrentLog = some j ∧
      (writeS 7 "hello" false initState).mLogQueue[j]? =
        some (LogEntry.mk 7 "hello" false) ∧
      j + 1 = (writeS 7 "hello" false initState).mLogQueue.length :=
  claim8_write_claims_floor initState Reachable.init 7 "hello" false rfl

/-- Claim C9: while some thread holds the floor with its cursor at end, an
append by a different thread neither signals the worker nor changes the
owner or the cursor; its entry just sits in the queue and the wait
predicate `mClosing || mCurrentLog != end` stays false, so the worker stays
blocked until the owner appends again or shutdown begins. -/
theorem claim9_foreign_append_no_wakeup (s : LogState) (t tid : Nat)
    (ht : s.mCurrentThreadId = some t) (hc : s.mCurrentLog = none)
    (hcl : s.mClosing = false) (hne : tid ≠ t) (txt : String) (fl : Bool) :
    writeN tid txt fl s = false ∧
    (writeS tid txt fl s).mCurrentThreadId = s.mCurrentThreadId ∧
    (writeS tid txt fl s).mCurrentLog = none ∧
    (writeS tid txt fl s).mLogQueue =
      s.mLogQueue ++ [LogEntry.mk tid txt fl] ∧
    drainEnabled (writeS tid txt fl s) = false := by
  have h1 : s.mCurrentThreadId ≠ none := by
    rw [ht]
    simp
  have h2 : s.mCurrentThreadId ≠ some tid := by
    rw [ht]
    intro hx
    have : t = tid := by simpa using hx
    exact hne this.symm
  refine ⟨?_, ?_, ?_, ?_, ?_⟩
  · simp only [writeN, write_owner_other s tid txt fl h1 h2]
  · simp only [writeS, write_owner_other s tid txt fl h1 h2]
  · simp only [writeS, write_owner_other s tid txt fl h1 h2]
    exact hc
  · simp only [writeS, write_owner_other s tid txt fl h1 h2]
  · simp only [writeS, write_owner_other s tid txt fl h1 h2]
    simp [drainEnabled, hcl, hc]

/-- Concrete instance of claim C9: thread 1 flushed nothing yet dried its
queue (owner 1, cursor at end); thread 2's append changes nothing visible
to the worker. -/
theorem claim9_foreign_append_no_wakeup_witness :
    writeN 2 "z" false (serializeStep (writeS 1 "a" false initState)) =
      false ∧
    (writeS 2 "z" false (serializeStep (writeS 1 "a" false
      initState))).mCurrentThreadId =
      (serializeStep (writeS 1 "a" false initState)).mCurrentThreadId ∧
    (writeS 2 "z" false (serializeStep (writeS 1 "a" false
      initState))).mCurrentLog = none ∧
    (writeS 2 "z" false (serializeStep (writeS 1 "a" false
      initState))).mLogQueue =
      (serializeStep (writeS 1 "a" false initState)).mLogQueue ++
        [LogEntry.mk 2 "z" false] ∧
    drainEnabled (writeS 2 "z" false (serializeStep (writeS 1 "a" false
      initState))) = false :=
  claim9_foreign_append_no_wakeup
    (serializeStep (writeS 1 "a" false initState)) 1 2 rfl rfl rfl
    (by decide) "z" false

/-- Claim C10, as stated, is false on the code: `Log::serialize` holds
`mLogMutex` (the `unique_lock` of line 129) across the whole loop body,
including both calls to `Log::flush` and hence the `std::cout` write; the
lock is never released around the sink write.  In this run a flushed
segment reaches the sink, and the flush event is stamped as having occurred
with the mutex held. -/
theorem claim10_counterexample :
    (serializeStep (writeS 1 "x" true initState)).sinkOut = ["x"] ∧
    (serializeStep (writeS 1 "x" true initState)).flushLog.map
      FlushEvent.locked = [true] := by
  exact ⟨rfl, rfl⟩

/-- Claim C10, amended: every sink write performed by the drain worker
happens while the worker holds `mLogMutex`; the worker releases the mutex
only inside the condition-variable wait, so producers cannot append
concurrently with a sink write. -/
theorem claim10_amended (s : LogState) (hr : Reachable s) :
    ∀ f ∈ s.flushLog, f.locked = true :=
  (reachable_good hr).locksTrue

/-- Concrete instance of the amended claim C10. -/
theorem claim10_amended_witness :
    (serializeStep (writeS 1 "x" true initState)).flushLog.all
      (fun f => f.locked) = true := by
  apply List.all_eq_true.mpr
  intro f hf
  exact claim10_amended (serializeStep (writeS 1 "x" true initState))
    (Reachable.step
      (Reachable.step Reachable.init (Step.write 1 "x" true initState))
      (Step.drain (writeS 1 "x" true initState) rfl rfl)) f hf

end BasicLogger
